import Mathlib

/-!
Verification of the record-reconciliation pipeline of the music-prediction
platform (source: `data_cleaning_pipeline.py`).  The Python code is shallowly
embedded: strings become `List Char`, pandas rows become lists of optional
fields, `difflib.SequenceMatcher` is embedded instruction-by-instruction,
and the regular expressions of the cleaning code are run on a small
backtracking engine transcribed from the patterns in the source.
-/

namespace MusicClean

/-! ## difflib.SequenceMatcher (used by `detect_duplicates`)

`SequenceMatcher(None, a, b)` with the default `autojunk=True`:
characters of `b` that occur more than `len(b) // 100 + 1` times are
"popular" when `len(b) >= 200` and are left out of the index `b2j`.
`isjunk` is `None`, so the junk set is empty. -/

/-- A character is popular (autojunk) iff `b` has at least 200 characters and
the character occurs more than `b.length / 100 + 1` times in `b`. -/
def bpopular (b : List Char) (c : Char) : Bool :=
  decide (200 ≤ b.length) && decide (b.length / 100 + 1 < b.count c)

/-- Positions `j` of character `c` in `b` restricted to `[blo, bhi)`, in
increasing order; empty for popular characters (they are deleted from `b2j`). -/
def jsOf (b : List Char) (blo bhi : Nat) (c : Char) : List Nat :=
  if bpopular b c then []
  else (List.range b.length).filter
    (fun j => decide (blo ≤ j) && decide (j < bhi) && (b.getD j 'a' == c))

/-- State of the `find_longest_match` scanning loop: current best block and
the `j2len` dictionary of the previous row (missing keys read as 0). -/
structure FlmSt where
  besti : Nat
  bestj : Nat
  bestsize : Nat
  j2len : Nat → Nat

/-- Body of the inner `for j in b2j.get(a[i], nothing)` loop of
`find_longest_match`: `k = newj2len[j] = j2len.get(j-1, 0) + 1` (a lookup of
key `-1` yields the default `0`, hence the `j = 0` case), and the best block
is updated whenever a strictly longer match ending at `(i, j)` is found. -/
def flmInner (old : Nat → Nat) (i : Nat)
    (p : (Nat × Nat × Nat) × (Nat → Nat)) (j : Nat) :
    (Nat × Nat × Nat) × (Nat → Nat) :=
  let k := if j = 0 then 1 else old (j - 1) + 1
  let nj := fun j' => if j' = j then k else p.2 j'
  let best := if p.1.2.2 < k then (i + 1 - k, j + 1 - k, k) else p.1
  (best, nj)

/-- One iteration of the outer `for i in range(alo, ahi)` loop of
`find_longest_match`: builds `newj2len` from the old `j2len`. -/
def flmStep (a b : List Char) (blo bhi : Nat) (st : FlmSt) (i : Nat) : FlmSt :=
  let js := jsOf b blo bhi (a.getD i 'a')
  let res := js.foldl (flmInner st.j2len i)
    ((st.besti, st.bestj, st.bestsize), fun _ => 0)
  ⟨res.1.1, res.1.2.1, res.1.2.2, res.2⟩

/-- The scanning phase of `find_longest_match` over `i ∈ [alo, ahi)`. -/
def flmScan (a b : List Char) (alo ahi blo bhi : Nat) : FlmSt :=
  (List.range' alo (ahi - alo)).foldl (flmStep a b blo bhi) ⟨alo, blo, 0, fun _ => 0⟩

/-- The first while-loop after the scan: extend the best block to the left by
equal characters (the junk set is empty, so `not isbjunk(...)` always holds). -/
def extendL (a b : List Char) (alo blo : Nat) :
    Nat → Nat → Nat → Nat → Nat × Nat × Nat
  | 0, besti, bestj, bestsize => (besti, bestj, bestsize)
  | fuel + 1, besti, bestj, bestsize =>
    if alo < besti ∧ blo < bestj ∧ a.getD (besti - 1) 'a' = b.getD (bestj - 1) 'a' then
      extendL a b alo blo fuel (besti - 1) (bestj - 1) (bestsize + 1)
    else (besti, bestj, bestsize)

/-- The second while-loop: extend the best block to the right by equal
characters.  The junk-absorbing loops never fire since the junk set is empty. -/
def extendR (a b : List Char) (ahi bhi : Nat) :
    Nat → Nat → Nat → Nat → Nat × Nat × Nat
  | 0, besti, bestj, bestsize => (besti, bestj, bestsize)
  | fuel + 1, besti, bestj, bestsize =>
    if besti + bestsize < ahi ∧ bestj + bestsize < bhi ∧
        a.getD (besti + bestsize) 'a' = b.getD (bestj + bestsize) 'a' then
      extendR a b ahi bhi fuel besti bestj (bestsize + 1)
    else (besti, bestj, bestsize)

/-- `find_longest_match(alo, ahi, blo, bhi)` on sequences `a`, `b`. -/
def findLongestMatch (a b : List Char) (alo ahi blo bhi : Nat) : Nat × Nat × Nat :=
  let st := flmScan a b alo ahi blo bhi
  let l := extendL a b alo blo st.besti st.besti st.bestj st.bestsize
  extendR a b ahi bhi ahi l.1 l.2.1 l.2.2

/-- Total size of the matching blocks of `get_matching_blocks`, computed by the
same divide-and-conquer recursion (fuel-indexed; the order in which the queue
is processed does not change the total). -/
def mtGo (a b : List Char) : Nat → Nat → Nat → Nat → Nat → Nat
  | 0, _, _, _, _ => 0
  | fuel + 1, alo, ahi, blo, bhi =>
    let m := findLongestMatch a b alo ahi blo bhi
    if m.2.2 = 0 then 0
    else
      m.2.2 + mtGo a b fuel alo m.1 blo m.2.1 +
        mtGo a b fuel (m.1 + m.2.2) ahi (m.2.1 + m.2.2) bhi

/-- `sum(triple.size for triple in sm.get_matching_blocks())`. -/
def matchesTotal (a b : List Char) : Nat :=
  mtGo a b (a.length + b.length + 1) 0 a.length 0 b.length

/-- `SequenceMatcher(None, a, b).ratio() = 2.0 * M / T`, as a rational;
`_calculate_ratio` returns `1.0` when `T = 0`. -/
def ratioQ (a b : List Char) : ℚ :=
  if a.length + b.length = 0 then 1
  else (2 * matchesTotal a b : ℚ) / ((a.length + b.length : Nat) : ℚ)

/-- Lower-casing of a string, as in `str.lower()` at the call sites of
`detect_duplicates` (embedded character-wise). -/
def lowerL (s : List Char) : List Char := s.map Char.toLower

/-- The similarity score used by `detect_duplicates`:
`SequenceMatcher(None, x.lower(), y.lower()).ratio()` (spec section 4.3:
a case-insensitive normalized string-similarity ratio). -/
def similarityQ (a b : List Char) : ℚ := ratioQ (lowerL a) (lowerL b)

/-! ## detect_duplicates

A normalized record is represented by its `(clean_track_name,
clean_artist_name)` pair; `detect_duplicates` only reads those two columns and
emits `(index1, index2)` pairs in row-major order. -/

/-- `detect_duplicates(df, similarity_threshold)`: for every `i`, `j` with
`i < j`, the pair `(i, j)` is emitted iff both the track similarity and the
artist similarity are at least the threshold. -/
def detectDuplicates (recs : List (List Char × List Char)) (th : ℚ) :
    List (Nat × Nat) :=
  (List.range recs.length).flatMap fun i =>
    (List.range recs.length).filterMap fun j =>
      if j ≤ i then none
      else
        let r1 := recs.getD i ([], [])
        let r2 := recs.getD j ([], [])
        if th ≤ similarityQ r1.1 r2.1 ∧ th ≤ similarityQ r1.2 r2.2 then
          some (i, j)
        else none

/-! ## Record merging

A dataframe row is a list of optional column values; all rows of one frame
have the same number of columns.  `merge_duplicate_records` and
`merge_cross_source_duplicates` address rows positionally (`df.iloc`). -/

/-- One row of a frame: one optional value per column. -/
abbrev Row := List (Option (List Char))

/-- Number of non-null entries of a row (`row.notna().sum()`). -/
def countSome (r : Row) : Nat := r.countP (fun x => x.isSome)

/-- Completeness score of `merge_duplicate_records`: non-null count plus a
bonus of 10 when the frame has a `view_count` column (at position `k`,
`hasattr(row, "view_count")`) and the row's value there is non-null. -/
def scoreRow (vcIdx : Option Nat) (r : Row) : Nat :=
  countSome r +
    (match vcIdx with
     | some k => if (r.getD k none).isSome then 10 else 0
     | none => 0)

/-- The `indices_to_remove` set built by `merge_duplicate_records`: pairs are
processed in order, a pair with an already-removed member is skipped, and a
live pair removes `index2` when `score1 >= score2`, else `index1`. -/
def mergeDupRemoved (vcIdx : Option Nat) (rows : List Row)
    (pairs : List (Nat × Nat)) : List Nat :=
  pairs.foldl (fun rem p =>
    if p.1 ∈ rem ∨ p.2 ∈ rem then rem
    else if scoreRow vcIdx (rows.getD p.2 []) ≤ scoreRow vcIdx (rows.getD p.1 []) then
      p.2 :: rem
    else p.1 :: rem) []

/-- `merge_duplicate_records(df, duplicates_df)`: drop the removed indices and
re-index. -/
def mergeDuplicateRecords (vcIdx : Option Nat) (rows : List Row)
    (pairs : List (Nat × Nat)) : List Row :=
  ((List.range rows.length).filter
    (fun i => i ∉ mergeDupRemoved vcIdx rows pairs)).map (fun i => rows.getD i [])

/-- Field-wise merge of `merge_cross_source_duplicates`: a column of the
surviving row is taken from the other row only when the survivor's value is
null and the other's is non-null. -/
def mergeRow (r1 r2 : Row) : Row :=
  List.zipWith (fun x y => match x with | some v => some v | none => y) r1 r2

/-- One iteration of the pair loop of `merge_cross_source_duplicates`:
skip if a member is already removed, otherwise write the merged row back at
`index1` and mark `index2` removed. -/
def crossStep (st : List Row × List Nat) (p : Nat × Nat) : List Row × List Nat :=
  if p.1 ∈ st.2 ∨ p.2 ∈ st.2 then st
  else (st.1.set p.1 (mergeRow (st.1.getD p.1 []) (st.1.getD p.2 [])), p.2 :: st.2)

/-- Rows after in-place merging together with the `indices_to_remove` set. -/
def mergeCrossState (rows : List Row) (pairs : List (Nat × Nat)) :
    List Row × List Nat :=
  pairs.foldl crossStep (rows, [])

/-- `merge_cross_source_duplicates(df, duplicates_df)`. -/
def mergeCrossSourceDuplicates (rows : List Row) (pairs : List (Nat × Nat)) :
    List Row :=
  ((List.range rows.length).filter
    (fun i => i ∉ (mergeCrossState rows pairs).2)).map
    (fun i => (mergeCrossState rows pairs).1.getD i [])

/-! ## Text normalization: clean_text

Python string primitives are embedded on `List Char`: `str.split()` and
`str.strip()` treat the fixed set of Unicode whitespace code points as
whitespace, and `str.replace` scans left to right without overlap.
`unicodedata.normalize("NFKD", text)` is modelled as a character-wise
decomposition parameter `decomp`. -/

/-- The Unicode whitespace code points recognized by `str.split()` and
`str.strip()`. -/
def pyWsList : List Char :=
  ['\t', '\n', '\x0b', '\x0c', '\r', '\x1c', '\x1d', '\x1e', '\x1f', ' ',
   '\u0085', '\u00a0', '\u1680', '\u2000', '\u2001', '\u2002', '\u2003',
   '\u2004', '\u2005', '\u2006', '\u2007', '\u2008', '\u2009', '\u200a',
   '\u2028', '\u2029', '\u202f', '\u205f', '\u3000']

/-- Python whitespace test. -/
def isWs (c : Char) : Bool := pyWsList.contains c

/-- Work loop of `text.split()`: maximal whitespace-free runs (`fuel` bounds
the number of steps, at least the length of the string). -/
def pySplitGo : Nat → List Char → List (List Char)
  | 0, _ => []
  | _ + 1, [] => []
  | fuel + 1, c :: rest =>
    if isWs c then pySplitGo fuel rest
    else (c :: rest.takeWhile (fun x => !isWs x)) ::
      pySplitGo fuel (rest.dropWhile (fun x => !isWs x))

/-- `text.split()`. -/
def pySplit (s : List Char) : List (List Char) := pySplitGo s.length s

/-- `" ".join(parts)`. -/
def pyJoin : List (List Char) → List Char
  | [] => []
  | p :: ps =>
    match ps with
    | [] => p
    | _ :: _ => p ++ ' ' :: pyJoin ps

/-- `" ".join(text.split())`: collapse consecutive whitespace. -/
def collapseWsJoin (s : List Char) : List Char := pyJoin (pySplit s)

/-- Work loop of `str.replace`: leftmost non-overlapping matches, scanning
left to right.  `fuel` bounds the number of steps (at least `s.length`). -/
def replGo (pat rep : List Char) : Nat → List Char → List Char
  | 0, s => s
  | _ + 1, [] => []
  | fuel + 1, c :: rest =>
    if pat ≠ [] ∧ pat.isPrefixOf (c :: rest) then
      rep ++ replGo pat rep fuel ((c :: rest).drop pat.length)
    else c :: replGo pat rep fuel rest

/-- `s.replace(pat, rep)` (all the patterns used by the code are non-empty). -/
def pyReplace (pat rep s : List Char) : List Char := replGo pat rep s.length s

/-- `s.strip()`: drop whitespace from both ends. -/
def pyStrip (s : List Char) : List Char :=
  ((s.dropWhile isWs).reverse.dropWhile isWs).reverse

/-- `s.strip(cs)`: drop the given characters from both ends
(for `title.strip(" -–—")`). -/
def stripChars (cs : List Char) (s : List Char) : List Char :=
  ((s.dropWhile (fun c => cs.contains c)).reverse.dropWhile
    (fun c => cs.contains c)).reverse

/-- First mis-encoded sequence of `clean_text`: U+00E2 U+20AC U+2122. -/
def art1 : List Char := ['\u00e2', '\u20ac', '\u2122']

/-- Second mis-encoded sequence: U+00E2 U+20AC U+0153. -/
def art2 : List Char := ['\u00e2', '\u20ac', '\u0153']

/-- Third mis-encoded sequence: U+00E2 U+20AC. -/
def art3 : List Char := ['\u00e2', '\u20ac']

/-- `clean_text(text)`: empty-check, NFKD normalization (modelled by the
character-wise `decomp` parameter), whitespace collapsing, the three artifact
replacements in source order, and a final strip. -/
def cleanText (decomp : Char → List Char) (text : List Char) : List Char :=
  if text = [] then []
  else
    pyStrip (pyReplace art3 ['"']
      (pyReplace art2 ['"']
        (pyReplace art1 ['\''] (collapseWsJoin (text.flatMap decomp)))))

/-- Modelled from the Unicode NFKD data for the characters exercised here:
U+00E2 (a with circumflex) canonically decomposes to "a" followed by the
combining circumflex U+0302, and U+2122 (trade mark sign) has the
compatibility decomposition "tm"; the other characters appearing in this
development are NFKD-stable. -/
def decompStd (c : Char) : List Char :=
  if c = '\u00e2' then ['a', '\u0302']
  else if c = '\u2122' then ['t', 'm']
  else [c]

/-- Head-is-space test (proof helper for the replace loop). -/
def hdSp : List Char → Bool
  | [] => false
  | c :: _ => c == ' '

/-- No two adjacent spaces (proof helper). -/
def NoDD (s : List Char) : Prop :=
  List.Chain' (fun a b => ¬(a = ' ' ∧ b = ' ')) s

/-- Contiguous slice `l[lo:hi]`. -/
def slice (l : List Char) (lo hi : Nat) : List Char := (l.drop lo).take (hi - lo)

/-! ## A regular-expression engine for the patterns of the pipeline

The pipeline uses `re.match` and `re.sub` with a fixed set of patterns.  The
patterns are embedded as an abstract syntax of the constructs they actually
use, and matched by a fuel-bounded backtracking matcher in
continuation-passing style with exactly CPython's strategy: alternation and
`(?:...)?` try the left / present branch first, `*` is greedy, `+?`/`*?` are
lazy, and the first overall match in this order wins.  `re.IGNORECASE` is
applied at the character level when a pattern is built (letters are compared
lower-cased). -/

/-- Regular-expression syntax: empty, single-character class, concatenation,
alternation, greedy star, lazy star, greedy option `(?:...)?`, numbered
group, `$` (end of string, in single-line mode), and the word boundary
`\b`. -/
inductive RE where
  | eps : RE
  | tok : (Char → Bool) → RE
  | seq : RE → RE → RE
  | alt : RE → RE → RE
  | starG : RE → RE
  | starL : RE → RE
  | optG : RE → RE
  | grp : Nat → RE → RE
  | eos : RE
  | wordB : RE

/-- Captured groups: `(group number, start, end)`, most recent first. -/
abbrev Caps := List (Nat × Nat × Nat)

/-- `\w` as used by the `\b` assertions of the code (ASCII letters, digits
and underscore; the inputs exercised there are ASCII). -/
def isWordCh (c : Char) : Bool := c.isAlphanum || c == '_'

/-- Structural size of a pattern, used to bound the matcher's fuel. -/
def reSize : RE → Nat
  | .eps => 1
  | .tok _ => 1
  | .eos => 1
  | .wordB => 1
  | .seq r1 r2 => reSize r1 + reSize r2 + 1
  | .alt r1 r2 => reSize r1 + reSize r2 + 1
  | .starG r => reSize r + 1
  | .starL r => reSize r + 1
  | .optG r => reSize r + 1
  | .grp _ r => reSize r + 1

/-- The backtracking matcher.  `reRun s fuel r pos caps k` tries to match `r`
in `s` starting at `pos` and calls the continuation `k` on the end position
and captures of each candidate match, in CPython's preference order; the
first candidate the continuation accepts is returned.  A repeated body must
consume input (the code's star bodies are single-character classes, so the
guard never fires).  `fuel` bounds the recursion depth; one unit is spent per
syntax node and per star iteration. -/
def reRun (s : List Char) : Nat → RE → Nat → Caps →
    (Nat → Caps → Option (Nat × Caps)) → Option (Nat × Caps)
  | 0, _, _, _, _ => none
  | fuel + 1, r, pos, caps, k =>
    match r with
    | .eps => k pos caps
    | .tok p =>
      if pos < s.length then
        if p (s.getD pos 'a') then k (pos + 1) caps else none
      else none
    | .seq r1 r2 =>
      reRun s fuel r1 pos caps (fun p c => reRun s fuel r2 p c k)
    | .alt r1 r2 =>
      match reRun s fuel r1 pos caps k with
      | some res => some res
      | none => reRun s fuel r2 pos caps k
    | .starG r1 =>
      match reRun s fuel r1 pos caps (fun p c =>
          if p = pos then none else reRun s fuel (.starG r1) p c k) with
      | some res => some res
      | none => k pos caps
    | .starL r1 =>
      match k pos caps with
      | some res => some res
      | none =>
        reRun s fuel r1 pos caps (fun p c =>
          if p = pos then none else reRun s fuel (.starL r1) p c k)
    | .optG r1 =>
      match reRun s fuel r1 pos caps k with
      | some res => some res
      | none => k pos caps
    | .grp n r1 =>
      reRun s fuel r1 pos caps (fun p c => k p ((n, pos, p) :: c))
    | .eos =>
      if pos = s.length ∨ (pos + 1 = s.length ∧ s.getD pos 'a' = '\n') then
        k pos caps
      else none
    | .wordB =>
      if (if pos = 0 then false else isWordCh (s.getD (pos - 1) 'a')) ≠
          (if pos < s.length then isWordCh (s.getD pos 'a') else false) then
        k pos caps
      else none

/-- `re.match` anchored at position `pos`: end position and captures of the
match, if any. -/
def reMatchAt (r : RE) (s : List Char) (pos : Nat) : Option (Nat × Caps) :=
  reRun s ((s.length + 1) * (reSize r + 2) + 2) r pos []
    (fun p c => some (p, c))

/-- `re.match(r, s)`: anchored at the start of the string. -/
def reMatch (r : RE) (s : List Char) : Option (Nat × Caps) := reMatchAt r s 0

/-- `match.group(n)` as a slice of the subject, `none` when the group did not
participate (the most recent capture wins, as in CPython). -/
def capStr (s : List Char) (caps : Caps) (n : Nat) : Option (List Char) :=
  match caps.find? (fun e => e.1 == n) with
  | some (_, st, en) => some (slice s st en)
  | none => none

/-- Scan loop of `re.sub`: at each position try a match; a non-empty match is
replaced and skipped, an empty match is replaced and the current character is
kept, otherwise the character is copied (CPython's scan).  `fuel` bounds the
steps (at least `s.length + 1`). -/
def reSubGo (r : RE) (rep s : List Char) : Nat → Nat → List Char
  | 0, _ => []
  | fuel + 1, pos =>
    match reMatchAt r s pos with
    | some pr =>
      if pos < pr.1 then rep ++ reSubGo r rep s fuel pr.1
      else if pos < s.length then
        rep ++ s.getD pos 'a' :: reSubGo r rep s fuel (pos + 1)
      else rep
    | none =>
      if pos < s.length then s.getD pos 'a' :: reSubGo r rep s fuel (pos + 1)
      else []

/-- `re.sub(r, rep, s)`. -/
def reSub (r : RE) (rep s : List Char) : List Char :=
  reSubGo r rep s (s.length + 1) 0

/-! ### Pattern constructors -/

/-- A single literal character (case-sensitive). -/
def chEx (c : Char) : RE := .tok (fun x => x == c)

/-- A single literal character under `re.IGNORECASE`. -/
def chCI (c : Char) : RE := .tok (fun x => x.toLower == c.toLower)

/-- A literal word under `re.IGNORECASE`. -/
def litCI (cs : List Char) : RE := cs.foldr (fun c r => .seq (chCI c) r) .eps

/-- A character class `[...]` of literal characters. -/
def clsIn (cs : List Char) : RE := .tok (fun x => cs.contains x)

/-- A negated character class `[^...]`. -/
def notCls (cs : List Char) : RE := .tok (fun x => !cs.contains x)

/-- `.`: any character but a newline. -/
def reDot : RE := .tok (fun x => x != '\n')

/-- `\s`: Python whitespace. -/
def reWs : RE := .tok isWs

/-- `\s*`. -/
def wsStar : RE := .starG reWs

/-- `\s+`. -/
def wsPlus : RE := .seq reWs wsStar

/-- `.*` (greedy). -/
def dotStar : RE := .starG reDot

/-- `.+?` (lazy). -/
def lazyPlus : RE := .seq reDot (.starL reDot)

/-- `\d+`. -/
def digitsP : RE := .seq (.tok (fun c => c.isDigit)) (.starG (.tok (fun c => c.isDigit)))

/-- Concatenation of a list of patterns. -/
def reCat (l : List RE) : RE := l.foldr .seq .eps

/-! ### The patterns of `extract_artist_track_from_title` -/

/-- The dash class `[-–—]` of extraction pattern 1 (hyphen, en dash, em
dash). -/
def dashCls : List Char := ['-', '–', '—']

/-- Extraction pattern 1 (Artist - Track). -/
def extPat1 : RE :=
  reCat [.grp 1 lazyPlus, wsStar, clsIn dashCls, wsStar, .grp 2 lazyPlus,
    .optG (reCat [wsStar, chEx '(', dotStar, chEx ')']),
    .optG (reCat [wsStar, chEx '[', dotStar, chEx ']']), .eos]

/-- Extraction pattern 2 (Artist "Track"); the source's quote class consists
of two ASCII double quotes. -/
def extPat2 : RE :=
  reCat [.grp 1 lazyPlus, wsStar, chEx '"', wsStar, .grp 2 lazyPlus, wsStar,
    chEx '"', wsStar]

/-- Extraction pattern 3 (Artist: Track). -/
def extPat3 : RE :=
  reCat [.grp 1 lazyPlus, wsStar, chEx ':', wsStar, .grp 2 lazyPlus,
    .optG (reCat [wsStar, chEx '(', dotStar, chEx ')']), .eos]

/-- Extraction pattern 4 (group 1, then `by`, then group 2). -/
def extPat4 : RE :=
  reCat [.grp 1 lazyPlus, wsPlus, litCI ['b', 'y'], wsPlus, .grp 2 lazyPlus,
    .optG (reCat [wsStar, chEx '(', dotStar, chEx ')']), .eos]

/-- The pattern list, in source order. -/
def extractPatterns : List RE := [extPat1, extPat2, extPat3, extPat4]

/-- The `exclude_terms` list. -/
def excludeTerms : List (List Char) :=
  ["official".data, "music".data, "video".data, "audio".data, "lyrics".data,
   "hd".data, "4k".data]

/-- One pattern attempt: on a match, the stripped groups
`(artist, track) = (group(1).strip(), group(2).strip())`. -/
def tryPattern (title : List Char) (r : RE) : Option (List Char × List Char) :=
  match reMatch r title with
  | none => none
  | some pr =>
    some (pyStrip ((capStr title pr.2 1).getD []),
      pyStrip ((capStr title pr.2 2).getD []))

/-- Substring test (`term in s` on Python strings). -/
def isSubL (pat : List Char) : List Char → Bool
  | [] => pat.isEmpty
  | c :: rest => pat.isPrefixOf (c :: rest) || isSubL pat rest

/-- The exclusion test: some excluded term occurs in `artist.lower()`. -/
def rejected (artist : List Char) : Bool :=
  excludeTerms.any (fun t => isSubL t (lowerL artist))

/-- The pattern loop of `extract_artist_track_from_title`: a non-matching or
rejected pattern falls through to the next one. -/
def extractGo (title : List Char) : List RE → Option (List Char) × List Char
  | [] => (none, title)
  | r :: rs =>
    match tryPattern title r with
    | none => extractGo title rs
    | some pr =>
      if rejected pr.1 then extractGo title rs else (some pr.1, pr.2)

/-- `extract_artist_track_from_title(title)`. -/
def extractArtistTrackFromTitle (title : List Char) :
    Option (List Char) × List Char :=
  if title = [] then (none, []) else extractGo title extractPatterns

/-- The amended specification shape: the first pattern that matches AND
passes the exclusion filter provides the result; otherwise
`(none, title)`. -/
def extractFirstAccepted (title : List Char) : Option (List Char) × List Char :=
  if title = [] then (none, [])
  else
    match extractPatterns.findSome? (fun r =>
        match tryPattern title r with
        | none => none
        | some pr => if rejected pr.1 then none else some pr) with
    | some pr => (some pr.1, pr.2)
    | none => (none, title)

/-! ### clean_track_title and clean_artist_name -/

/-- The fifteen `title_replacements` patterns, in source (insertion)
order, all applied with `re.IGNORECASE` and empty replacement. -/
def trPats : List RE :=
  [reCat [chEx '(', litCI "official".data, wsPlus, litCI "music".data, wsPlus,
     litCI "video".data, chEx ')'],
   reCat [chEx '(', litCI "official".data, wsPlus, litCI "video".data,
     chEx ')'],
   reCat [chEx '(', litCI "official".data, wsPlus, litCI "audio".data,
     chEx ')'],
   reCat [chEx '[', litCI "official".data, wsPlus, litCI "music".data, wsPlus,
     litCI "video".data, chEx ']'],
   reCat [chEx '[', litCI "official".data, wsPlus, litCI "video".data,
     chEx ']'],
   reCat [chEx '[', litCI "official".data, wsPlus, litCI "audio".data,
     chEx ']'],
   reCat [chEx '(', litCI "music".data, wsPlus, litCI "video".data, chEx ')'],
   reCat [chEx '(', litCI "audio".data, wsPlus, litCI "only".data, chEx ')'],
   reCat [chEx '(', litCI "lyric".data, wsPlus, litCI "video".data, chEx ')'],
   reCat [chEx '(', litCI "lyrics".data, chEx ')'],
   reCat [chEx '(', litCI "hd".data, chEx ')'],
   reCat [chEx '(', litCI "4k".data, chEx ')'],
   reCat [chEx '(', litCI "remastered".data, chEx ')'],
   reCat [wsPlus, chEx '-', wsPlus, litCI "topic".data, .eos],
   reCat [wsPlus, chEx '-', wsPlus, litCI "official".data, .eos]]

/-- The alternation `(?:remix|version|edit|mix)` (IGNORECASE). -/
def remixAlt : RE :=
  .alt (litCI "remix".data)
    (.alt (litCI "version".data) (.alt (litCI "edit".data) (litCI "mix".data)))

/-- Bracketed metadata. -/
def brMetaRE : RE := reCat [chEx '[', .starG (notCls [']']), remixAlt, chEx ']']

/-- Parenthesized metadata. -/
def parMetaRE : RE :=
  reCat [chEx '(', .starG (notCls [')']), remixAlt, chEx ')']

/-- The final strip set of `clean_track_title`: space, hyphen, en dash, em
dash. -/
def titleStripSet : List Char := [' ', '-', '–', '—']

/-- `clean_track_title(title)`: empty-check, `clean_text`, the fifteen
replacement patterns, the two metadata patterns, whitespace collapsing, and
the final strip. -/
def cleanTrackTitle (decomp : Char → List Char) (title : List Char) :
    List Char :=
  if title = [] then []
  else
    stripChars titleStripSet
      (reSub wsPlus [' ']
        (reSub parMetaRE []
          (reSub brMetaRE []
            (trPats.foldl (fun t r => reSub r [] t)
              (cleanText decomp title)))))

/-- The `artist_standardizations` replacements, in source order. -/
def artistStd : List (List Char × List Char) :=
  [("ft.".data, "feat.".data), ("ft ".data, "feat. ".data),
   ("featuring".data, "feat.".data), (" & ".data, " and ".data),
   (" vs ".data, " vs. ".data), (" x ".data, " feat. ".data)]

/-- `\s*-\s*Topic$` (IGNORECASE). -/
def topicRE : RE := reCat [wsStar, chEx '-', wsStar, litCI "topic".data, .eos]

/-- `\bfeat\b\.?` (IGNORECASE). -/
def featRE : RE :=
  reCat [.wordB, litCI "feat".data, .wordB, .optG (chEx '.')]

/-- `clean_artist_name(artist)`: empty-check, `clean_text`, the literal
standardizations, the Topic-suffix removal, the featuring normalization, and
a final strip. -/
def cleanArtistName (decomp : Char → List Char) (artist : List Char) :
    List Char :=
  if artist = [] then []
  else
    pyStrip (reSub featRE "feat.".data
      (reSub topicRE []
        (artistStd.foldl (fun a pr => pyReplace pr.1 pr.2 a)
          (cleanText decomp artist))))

/-! ### The chart and YouTube cleaning stages (C9, C10) -/

/-- Decimal value of a digit string (`int(...)` on the digits captured by the
patterns). -/
def toNatD (s : List Char) : Nat :=
  s.foldl (fun n c => n * 10 + (c.toNat - 48)) 0

/-- `pd.to_numeric(x, errors="coerce")` on a text cell, restricted to the
integer values the pipeline stores: an optionally signed digit string (with
surrounding whitespace) parses, anything else coerces to null (NaN). -/
def parsePyInt (s : List Char) : Option Int :=
  match pyStrip s with
  | [] => none
  | '-' :: ds =>
    if ds ≠ [] ∧ ds.all (fun c => c.isDigit) then some (-(toNatD ds : Int))
    else none
  | '+' :: ds =>
    if ds ≠ [] ∧ ds.all (fun c => c.isDigit) then some ((toNatD ds : Int))
    else none
  | ds =>
    if ds.all (fun c => c.isDigit) then some ((toNatD ds : Int)) else none

/-- `parse_duration` of `clean_youtube_data`: `PT(?:(\d+)M)?(?:(\d+)S)?` via
`re.match`, absent groups counting as 0, and 0 for null, empty or
non-matching strings. -/
def durRE : RE :=
  reCat [chEx 'P', chEx 'T', .optG (reCat [.grp 1 digitsP, chEx 'M']),
    .optG (reCat [.grp 2 digitsP, chEx 'S'])]

/-- `parse_duration(duration_str)`. -/
def parseDuration (dur : Option (List Char)) : Nat :=
  match dur with
  | none => 0
  | some s =>
    if s = [] then 0
    else
      match reMatch durRE s with
      | some pr =>
        toNatD ((capStr s pr.2 1).getD []) * 60 +
          toNatD ((capStr s pr.2 2).getD [])
      | none => 0

/-- `parse_additional_info` / `parse_tags`: null and the empty string give
the default `e`, otherwise the JSON parser `jp` is tried and a failure also
gives the default (the `except` branch). -/
def parseJsonCol {α : Type} (jp : List Char → Option α) (e : α)
    (cell : Option (List Char)) : α :=
  match cell with
  | none => e
  | some s => if s = [] then e else (jp s).getD e

/-- A raw `chart_data` row (the columns the cleaning stage reads). -/
structure RawChart where
  track : List Char
  artist : List Char
  chartName : List Char
  chartDate : List Char
  position : Option (List Char)
  addInfo : Option (List Char)

/-- A cleaned chart row before deduplication; `α` is the JSON value type of
`additional_info_parsed`. -/
structure CleanChart (α : Type) where
  raw : RawChart
  cleanTrack : List Char
  cleanArtist : List Char
  positionNum : Option Int
  info : α

/-- The row-wise part of `clean_chart_data` (loading, text cleaning, the
empty-name filter, position coercion and JSON parsing; deduplication is
applied afterwards): derived columns are added by `map`, then rows with an
empty clean track or artist are dropped. -/
def chartCleanStage {α : Type} (decomp : Char → List Char)
    (jp : List Char → Option α) (e : α) (rows : List RawChart) :
    List (CleanChart α) :=
  ((rows.map (fun r =>
      CleanChart.mk r (cleanTrackTitle decomp r.track)
        (cleanArtistName decomp r.artist) (r.position.bind parsePyInt)
        (parseJsonCol jp e r.addInfo))).filter
    (fun c => !c.cleanTrack.isEmpty && !c.cleanArtist.isEmpty))

/-- A raw `youtube_videos` row (the columns the cleaning stage reads). -/
structure RawYt where
  title : List Char
  channel : List Char
  viewCount : Option (List Char)
  likeCount : Option (List Char)
  commentCount : Option (List Char)
  duration : Option (List Char)
  tags : Option (List Char)

/-- A cleaned YouTube row; `β` is the value type of `tags_list`. -/
structure CleanYt (β : Type) where
  raw : RawYt
  cleanTitle : List Char
  cleanChannel : List Char
  extractedArtist : Option (List Char)
  extractedTrack : List Char
  finalArtist : List Char
  finalTrack : List Char
  viewCountN : Int
  likeCountN : Int
  commentCountN : Int
  durationSeconds : Nat
  tagsList : β

/-- Builds one cleaned YouTube row: text cleaning, artist/track extraction,
the channel fallback (`extracted_artist` may be absent or empty), numeric
coercion followed by `fillna(0)`, duration and tags parsing. -/
def ytCleanRow {β : Type} (decomp : Char → List Char)
    (jt : List Char → Option β) (e : β) (r : RawYt) : CleanYt β :=
  let ct := cleanTrackTitle decomp r.title
  let cc := cleanArtistName decomp r.channel
  let ex := extractArtistTrackFromTitle ct
  CleanYt.mk r ct cc ex.1 ex.2
    (match ex.1 with
     | some a => if a = [] then cc else a
     | none => cc)
    (if ex.2 = [] then ct else ex.2)
    ((r.viewCount.bind parsePyInt).getD 0)
    ((r.likeCount.bind parsePyInt).getD 0)
    ((r.commentCount.bind parsePyInt).getD 0)
    (parseDuration r.duration)
    (parseJsonCol jt e r.tags)

/-- The row-wise part of `clean_youtube_data`: derived columns by `map`, then
the filter keeping rows whose final track and artist are non-empty. -/
def ytCleanStage {β : Type} (decomp : Char → List Char)
    (jt : List Char → Option β) (e : β) (rows : List RawYt) :
    List (CleanYt β) :=
  ((rows.map (ytCleanRow decomp jt e)).filter
    (fun c => !c.finalTrack.isEmpty && !c.finalArtist.isEmpty))

/-! ### The unified dataset (C10) -/

/-- Decimal digits of a natural number (fuel-structural; `fuel > n`
suffices). -/
def natDigsGo : Nat → Nat → List Char
  | 0, _ => []
  | fuel + 1, n =>
    if n < 10 then [Char.ofNat (48 + n)]
    else natDigsGo fuel (n / 10) ++ [Char.ofNat (48 + n % 10)]

/-- Decimal rendering of an integer, used to store the numeric columns of the
unified frame in its textual cells. -/
def intToStr (i : Int) : List Char :=
  match i with
  | .ofNat n => natDigsGo (n + 1) n
  | .negSucc m => '-' :: natDigsGo (m + 2) (m + 1)

/-- The unified record built from one cleaned chart row (`source =
"chart"`; the YouTube-only columns are null). -/
def projChart {α : Type} (r : CleanChart α) : Row :=
  [some r.cleanTrack, some r.cleanArtist, some "chart".data,
   some r.raw.chartName, r.positionNum.map intToStr, some r.raw.chartDate,
   none, none, none, some r.raw.track, some r.raw.artist]

/-- The unified record built from one cleaned YouTube row (`source =
"youtube"`; the chart-only columns are null). -/
def projYt {β : Type} (r : CleanYt β) : Row :=
  [some r.finalTrack, some r.finalArtist, some "youtube".data, none, none,
   none, some (intToStr r.viewCountN), some (intToStr r.likeCountN),
   some (intToStr (Int.ofNat r.durationSeconds)), some r.raw.title,
   some r.raw.channel]

/-- `unified_records`: every chart record, in order, followed by every
YouTube record, in order. -/
def combinedRows {α β : Type} (cs : List (CleanChart α))
    (ys : List (CleanYt β)) : List Row :=
  cs.map projChart ++ ys.map projYt

/-- The `(clean_track_name, clean_artist_name)` pair `detect_duplicates`
reads from a unified record after the rename (columns 0 and 1). -/
def rowTitleArtist (r : Row) : List Char × List Char :=
  ((r.getD 0 none).getD [], (r.getD 1 none).getD [])

/-- The duplicate pairs of the unified frame. -/
def unifiedPairs (rows : List Row) (th : ℚ) : List (Nat × Nat) :=
  detectDuplicates (rows.map rowTitleArtist) th

/-- The `source` column of record `i`. -/
def sourceOf (rows : List Row) (i : Nat) : Option (List Char) :=
  (rows.getD i []).getD 2 none

/-! ## Soundness of the matcher

Every block reported by `findLongestMatch` is a genuine common block of `a`
and `b`, and the total `matchesTotal a b` is realized by a common subsequence
of `a` and `b`.  This yields `ratioQ a b ≤ 1` and
`ratioQ a b = 1 → a = b`. -/

/-- The triple `(i, j, k)` is a common block of `a[alo:M]` and `b[blo:bhi]`
(all character comparisons through `getD`). -/
def ValidBlock (a b : List Char) (alo M blo bhi i j k : Nat) : Prop :=
  alo ≤ i ∧ i + k ≤ M ∧ blo ≤ j ∧ j + k ≤ bhi ∧
    ∀ t, t < k → a.getD (i + t) 'a' = b.getD (j + t) 'a'

/-- A `j2len` chain of length `k` ending at matrix cell `(m - 1, j)`. -/
def ChainOK (a b : List Char) (alo blo bhi m j k : Nat) : Prop :=
  ∃ i0 j0, i0 + k = m ∧ j0 + k = j + 1 ∧ alo ≤ i0 ∧ blo ≤ j0 ∧ j < bhi ∧
    ∀ t, t < k → a.getD (i0 + t) 'a' = b.getD (j0 + t) 'a'

/-- Invariant of the scanning loop after processing rows `alo..m-1`. -/
def StOK (a b : List Char) (alo blo bhi m : Nat) (st : FlmSt) : Prop :=
  ValidBlock a b alo m blo bhi st.besti st.bestj st.bestsize ∧
    ∀ j, 0 < st.j2len j → ChainOK a b alo blo bhi m j (st.j2len j)

/-- Invariant of the inner loop while processing row `m`. -/
def InnerOK (a b : List Char) (alo blo bhi m : Nat)
    (p : (Nat × Nat × Nat) × (Nat → Nat)) : Prop :=
  ValidBlock a b alo (m + 1) blo bhi p.1.1 p.1.2.1 p.1.2.2 ∧
    ∀ j, 0 < p.2 j → ChainOK a b alo blo bhi (m + 1) j (p.2 j)

lemma ValidBlock.mono {a b : List Char} {alo M M' blo bhi i j k : Nat}
    (h : ValidBlock a b alo M blo bhi i j k) (hM : M ≤ M') :
    ValidBlock a b alo M' blo bhi i j k :=
  ⟨h.1, le_trans h.2.1 hM, h.2.2.1, h.2.2.2.1, h.2.2.2.2⟩

lemma jsOf_mem {b : List Char} {blo bhi : Nat} {c : Char} {j : Nat}
    (h : j ∈ jsOf b blo bhi c) : blo ≤ j ∧ j < bhi ∧ b.getD j 'a' = c := by
  unfold jsOf at h
  split at h
  · simp at h
  · simp only [List.mem_filter, List.mem_range, Bool.and_eq_true,
      decide_eq_true_eq, beq_iff_eq] at h
    exact ⟨h.2.1.1, h.2.1.2, h.2.2⟩

lemma bestUpdate_ok {a b : List Char} {alo blo bhi m j K : Nat}
    (hK : ChainOK a b alo blo bhi (m + 1) j K) :
    ValidBlock a b alo (m + 1) blo bhi (m + 1 - K) (j + 1 - K) K := by
  obtain ⟨i0, j0, hi0, hj0, hai0, hbj0, hjb, hch⟩ := hK
  have e1 : m + 1 - K = i0 := by omega
  have e2 : j + 1 - K = j0 := by omega
  rw [e1, e2]
  exact ⟨hai0, by omega, hbj0, by omega, hch⟩

lemma flmInner_ok {a b : List Char} {alo blo bhi m : Nat} {old : Nat → Nat}
    (hm : alo ≤ m)
    (hold : ∀ j, 0 < old j → ChainOK a b alo blo bhi m j (old j))
    {p : (Nat × Nat × Nat) × (Nat → Nat)} {j : Nat}
    (hj1 : blo ≤ j) (hj2 : j < bhi) (hj3 : b.getD j 'a' = a.getD m 'a')
    (hp : InnerOK a b alo blo bhi m p) :
    InnerOK a b alo blo bhi m (flmInner old m p j) := by
  obtain ⟨hbest, hchains⟩ := hp
  -- the freshly computed chain value forms a valid chain ending at row m
  have hone : ChainOK a b alo blo bhi (m + 1) j 1 :=
    ⟨m, j, rfl, rfl, hm, hj1, hj2, by
      intro t ht
      have ht0 : t = 0 := by omega
      subst ht0
      simpa using hj3.symm⟩
  have hK : ChainOK a b alo blo bhi (m + 1) j
      (if j = 0 then 1 else old (j - 1) + 1) := by
    by_cases h0 : j = 0
    · simpa [h0] using hone
    · simp only [if_neg h0]
      rcases Nat.eq_zero_or_pos (old (j - 1)) with hz | hpos
      · simpa [hz] using hone
      · obtain ⟨i0, j0, hi0, hj0, hai0, hbj0, _, hch⟩ := hold (j - 1) hpos
        refine ⟨i0, j0, by omega, by omega, hai0, hbj0, hj2, ?_⟩
        intro t ht
        rcases Nat.lt_or_ge t (old (j - 1)) with hlt | hge
        · exact hch t hlt
        · have ht' : t = old (j - 1) := by omega
          subst ht'
          have h1 : i0 + old (j - 1) = m := hi0
          have h2 : j0 + old (j - 1) = j := by omega
          rw [h1, h2]
          exact hj3.symm
  constructor
  · -- the best block stays valid
    show ValidBlock a b alo (m + 1) blo bhi _ _ _
    simp only [flmInner]
    by_cases hlt : p.1.2.2 < (if j = 0 then 1 else old (j - 1) + 1)
    · rw [if_pos hlt]
      exact bestUpdate_ok hK
    · rw [if_neg hlt]
      exact hbest
  · -- the updated newj2len keeps the chain invariant
    intro j' hpos
    simp only [flmInner] at hpos ⊢
    by_cases hjj : j' = j
    · subst hjj
      simp only [if_pos rfl] at hpos ⊢
      exact hK
    · simp only [if_neg hjj] at hpos ⊢
      exact hchains j' hpos

lemma flmInner_fold_ok {a b : List Char} {alo blo bhi m : Nat} {old : Nat → Nat}
    (hm : alo ≤ m)
    (hold : ∀ j, 0 < old j → ChainOK a b alo blo bhi m j (old j)) :
    ∀ (js : List Nat)
      (_ : ∀ j ∈ js, blo ≤ j ∧ j < bhi ∧ b.getD j 'a' = a.getD m 'a')
      (p : (Nat × Nat × Nat) × (Nat → Nat))
      (_ : InnerOK a b alo blo bhi m p),
      InnerOK a b alo blo bhi m (js.foldl (flmInner old m) p) := by
  intro js
  induction js with
  | nil => intro _ p hp; exact hp
  | cons j js ih =>
    intro hjs p hp
    have hj := hjs j (List.mem_cons_self _ _)
    exact ih (fun x hx => hjs x (List.mem_cons_of_mem _ hx)) _
      (flmInner_ok hm hold hj.1 hj.2.1 hj.2.2 hp)

lemma flmStep_ok {a b : List Char} {alo blo bhi m : Nat} {st : FlmSt}
    (hm : alo ≤ m) (h : StOK a b alo blo bhi m st) :
    StOK a b alo blo bhi (m + 1) (flmStep a b blo bhi st m) := by
  obtain ⟨hbest, hchains⟩ := h
  have hinner := flmInner_fold_ok hm hchains (jsOf b blo bhi (a.getD m 'a'))
    (fun j hj => jsOf_mem hj)
    ((st.besti, st.bestj, st.bestsize), fun _ => 0)
    ⟨hbest.mono (Nat.le_succ m), fun j hj => absurd hj (by simp)⟩
  unfold flmStep
  exact ⟨hinner.1, hinner.2⟩

lemma flmScan_fold_ok {a b : List Char} {alo blo bhi : Nat} :
    ∀ (n m : Nat) (st : FlmSt), alo ≤ m → StOK a b alo blo bhi m st →
      StOK a b alo blo bhi (m + n)
        ((List.range' m n).foldl (flmStep a b blo bhi) st) := by
  intro n
  induction n with
  | zero => intro m st _ h; simpa using h
  | succ n ih =>
    intro m st hm h
    have := ih (m + 1) _ (by omega) (flmStep_ok hm h)
    rw [List.range'_succ]
    simpa [Nat.add_comm, Nat.add_assoc, Nat.add_left_comm] using this

lemma flmScan_ok {a b : List Char} {alo ahi blo bhi : Nat}
    (hA : alo ≤ ahi) (hB : blo ≤ bhi) :
    StOK a b alo blo bhi ahi (flmScan a b alo ahi blo bhi) := by
  have hinit : StOK a b alo blo bhi alo ⟨alo, blo, 0, fun _ => 0⟩ := by
    refine ⟨⟨le_refl _, ?_, le_refl _, ?_, ?_⟩, ?_⟩
    · show alo + 0 ≤ alo
      omega
    · show blo + 0 ≤ bhi
      omega
    · show ∀ t, t < 0 → _
      intro t ht
      exact absurd ht (by omega)
    · intro j hj
      simp at hj
  have := flmScan_fold_ok (ahi - alo) alo _ (le_refl alo) hinit
  unfold flmScan
  have hEq : alo + (ahi - alo) = ahi := by omega
  rwa [hEq] at this

lemma extendL_valid {a b : List Char} {alo M blo bhi : Nat} :
    ∀ (fuel i j k : Nat), ValidBlock a b alo M blo bhi i j k →
      ValidBlock a b alo M blo bhi (extendL a b alo blo fuel i j k).1
        (extendL a b alo blo fuel i j k).2.1 (extendL a b alo blo fuel i j k).2.2 := by
  intro fuel
  induction fuel with
  | zero => intro i j k h; exact h
  | succ fuel ih =>
    intro i j k h
    rw [extendL]
    split
    · rename_i hc
      obtain ⟨h1, h2, h3⟩ := hc
      obtain ⟨ha1, ha2, ha3, ha4, ha5⟩ := h
      refine ih _ _ _ ⟨by omega, by omega, by omega, by omega, ?_⟩
      intro t ht
      rcases Nat.eq_zero_or_pos t with h0 | hpos
      · subst h0
        simpa using h3
      · have h1' : i - 1 + t = i + (t - 1) := by omega
        have h2' : j - 1 + t = j + (t - 1) := by omega
        rw [h1', h2']
        exact ha5 (t - 1) (by omega)
    · exact h

lemma extendR_valid {a b : List Char} {alo M blo bhi : Nat} :
    ∀ (fuel i j k : Nat), ValidBlock a b alo M blo bhi i j k →
      ValidBlock a b alo M blo bhi (extendR a b M bhi fuel i j k).1
        (extendR a b M bhi fuel i j k).2.1 (extendR a b M bhi fuel i j k).2.2 := by
  intro fuel
  induction fuel with
  | zero => intro i j k h; exact h
  | succ fuel ih =>
    intro i j k h
    rw [extendR]
    split
    · rename_i hc
      obtain ⟨h1, h2, h3⟩ := hc
      obtain ⟨ha1, ha2, ha3, ha4, ha5⟩ := h
      refine ih _ _ _ ⟨ha1, by omega, ha3, by omega, ?_⟩
      intro t ht
      rcases Nat.lt_or_ge t k with hlt | hge
      · exact ha5 t hlt
      · have ht' : t = k := by omega
        subst ht'
        exact h3
    · exact h

/-- Every triple returned by `findLongestMatch` is a genuine common block. -/
lemma findLongestMatch_valid {a b : List Char} {alo ahi blo bhi : Nat}
    (hA : alo ≤ ahi) (hB : blo ≤ bhi) :
    ValidBlock a b alo ahi blo bhi (findLongestMatch a b alo ahi blo bhi).1
      (findLongestMatch a b alo ahi blo bhi).2.1
      (findLongestMatch a b alo ahi blo bhi).2.2 := by
  have hscan := (flmScan_ok (a := a) (b := b) hA hB).1
  unfold findLongestMatch
  have hL := @extendL_valid a b alo ahi blo bhi
    (flmScan a b alo ahi blo bhi).besti
    (flmScan a b alo ahi blo bhi).besti (flmScan a b alo ahi blo bhi).bestj
    (flmScan a b alo ahi blo bhi).bestsize hscan
  exact @extendR_valid a b alo ahi blo bhi ahi _ _ _ hL

lemma slice_length {l : List Char} {lo hi : Nat} (h1 : lo ≤ hi)
    (h2 : hi ≤ l.length) : (slice l lo hi).length = hi - lo := by
  simp only [slice, List.length_take, List.length_drop]
  omega

lemma slice_split (l : List Char) (lo mid hi : Nat) (h1 : lo ≤ mid)
    (h2 : mid ≤ hi) : slice l lo hi = slice l lo mid ++ slice l mid hi := by
  unfold slice
  have h3 : hi - lo = (mid - lo) + (hi - mid) := by omega
  have h4 : lo + (mid - lo) = mid := by omega
  rw [h3, List.take_add, List.drop_drop, h4]

lemma slice_eq_of_getD {a b : List Char} {i j k : Nat}
    (hak : i + k ≤ a.length) (hbk : j + k ≤ b.length)
    (h : ∀ t, t < k → a.getD (i + t) 'a' = b.getD (j + t) 'a') :
    slice a i (i + k) = slice b j (j + k) := by
  apply List.ext_getElem
  · rw [slice_length (by omega) hak, slice_length (by omega) hbk]
    omega
  · intro t h1 h2
    rw [slice_length (by omega) hak] at h1
    have ht : t < k := by omega
    have hta : i + t < a.length := by omega
    have htb : j + t < b.length := by omega
    have hchar := h t ht
    rw [List.getD_eq_getElem a 'a' hta, List.getD_eq_getElem b 'a' htb] at hchar
    simpa [slice, List.getElem_take, List.getElem_drop] using hchar

/-- The total reported by `mtGo` is realized by a common subsequence of the
two slices. -/
lemma mtGo_subseq (a b : List Char) :
    ∀ (fuel alo ahi blo bhi : Nat), alo ≤ ahi → ahi ≤ a.length →
      blo ≤ bhi → bhi ≤ b.length →
      ∃ l : List Char, l.Sublist (slice a alo ahi) ∧
        l.Sublist (slice b blo bhi) ∧
        l.length = mtGo a b fuel alo ahi blo bhi := by
  intro fuel
  induction fuel with
  | zero =>
    intro alo ahi blo bhi _ _ _ _
    exact ⟨[], List.nil_sublist _, List.nil_sublist _, by simp [mtGo]⟩
  | succ fuel ih =>
    intro alo ahi blo bhi h1 h2 h3 h4
    rw [mtGo]
    obtain ⟨hv1, hv2, hv3, hv4, hv5⟩ :=
      @findLongestMatch_valid a b alo ahi blo bhi h1 h3
    by_cases hk : (findLongestMatch a b alo ahi blo bhi).2.2 = 0
    · rw [if_pos hk]
      exact ⟨[], List.nil_sublist _, List.nil_sublist _, by simp⟩
    · rw [if_neg hk]
      obtain ⟨l1, hl1a, hl1b, hl1len⟩ :=
        ih alo (findLongestMatch a b alo ahi blo bhi).1 blo
          (findLongestMatch a b alo ahi blo bhi).2.1 hv1 (by omega) hv3 (by omega)
      obtain ⟨l2, hl2a, hl2b, hl2len⟩ :=
        ih ((findLongestMatch a b alo ahi blo bhi).1 +
              (findLongestMatch a b alo ahi blo bhi).2.2) ahi
          ((findLongestMatch a b alo ahi blo bhi).2.1 +
              (findLongestMatch a b alo ahi blo bhi).2.2) bhi
          hv2 h2 hv4 h4
      have hmid : slice a (findLongestMatch a b alo ahi blo bhi).1
          ((findLongestMatch a b alo ahi blo bhi).1 +
            (findLongestMatch a b alo ahi blo bhi).2.2) =
          slice b (findLongestMatch a b alo ahi blo bhi).2.1
          ((findLongestMatch a b alo ahi blo bhi).2.1 +
            (findLongestMatch a b alo ahi blo bhi).2.2) :=
        slice_eq_of_getD (by omega) (by omega) hv5
      refine ⟨l1 ++ slice a (findLongestMatch a b alo ahi blo bhi).1
          ((findLongestMatch a b alo ahi blo bhi).1 +
            (findLongestMatch a b alo ahi blo bhi).2.2) ++ l2, ?_, ?_, ?_⟩
      · rw [slice_split a alo (findLongestMatch a b alo ahi blo bhi).1 ahi
          hv1 (by omega),
          slice_split a (findLongestMatch a b alo ahi blo bhi).1
            ((findLongestMatch a b alo ahi blo bhi).1 +
              (findLongestMatch a b alo ahi blo bhi).2.2) ahi (by omega) hv2,
          ← List.append_assoc]
        exact ((hl1a.append (List.Sublist.refl _)).append hl2a)
      · rw [slice_split b blo (findLongestMatch a b alo ahi blo bhi).2.1 bhi
          hv3 (by omega),
          slice_split b (findLongestMatch a b alo ahi blo bhi).2.1
            ((findLongestMatch a b alo ahi blo bhi).2.1 +
              (findLongestMatch a b alo ahi blo bhi).2.2) bhi (by omega) hv4,
          ← List.append_assoc, hmid]
        exact ((hl1b.append (List.Sublist.refl _)).append hl2b)
      · have hlm : (slice a (findLongestMatch a b alo ahi blo bhi).1
            ((findLongestMatch a b alo ahi blo bhi).1 +
              (findLongestMatch a b alo ahi blo bhi).2.2)).length =
            (findLongestMatch a b alo ahi blo bhi).2.2 := by
          rw [slice_length (by omega) (by omega)]
          omega
        simp only [List.length_append, hl1len, hl2len, hlm]
        omega

lemma matchesTotal_subseq (a b : List Char) :
    ∃ l : List Char, l.Sublist a ∧ l.Sublist b ∧
      l.length = matchesTotal a b := by
  have h := mtGo_subseq a b (a.length + b.length + 1) 0 a.length 0 b.length
    (by omega) (le_refl _) (by omega) (le_refl _)
  simpa [matchesTotal, slice] using h

lemma ratioQ_le_one (a b : List Char) : ratioQ a b ≤ 1 := by
  unfold ratioQ
  split
  · exact le_refl _
  · rename_i ht
    rw [div_le_one (by exact_mod_cast Nat.pos_of_ne_zero ht)]
    obtain ⟨l, hla, hlb, hlen⟩ := matchesTotal_subseq a b
    have h1 : matchesTotal a b ≤ a.length := hlen ▸ hla.length_le
    have h2 : matchesTotal a b ≤ b.length := hlen ▸ hlb.length_le
    exact_mod_cast (by omega : 2 * matchesTotal a b ≤ a.length + b.length)

lemma eq_of_one_le_ratioQ {a b : List Char} (h : 1 ≤ ratioQ a b) : a = b := by
  unfold ratioQ at h
  split at h
  · rename_i ht
    have ha : a = [] := List.length_eq_zero.mp (by omega)
    have hb : b = [] := List.length_eq_zero.mp (by omega)
    rw [ha, hb]
  · rename_i ht
    have hT : (0 : ℚ) < ((a.length + b.length : Nat) : ℚ) := by
      exact_mod_cast Nat.pos_of_ne_zero ht
    rw [le_div_iff₀ hT, one_mul] at h
    have h' : a.length + b.length ≤ 2 * matchesTotal a b := by exact_mod_cast h
    obtain ⟨l, hla, hlb, hlen⟩ := matchesTotal_subseq a b
    have h1 : matchesTotal a b ≤ a.length := hlen ▸ hla.length_le
    have h2 : matchesTotal a b ≤ b.length := hlen ▸ hlb.length_le
    have ea : l = a := hla.eq_of_length (by omega)
    have eb : l = b := hlb.eq_of_length (by omega)
    rw [← ea, ← eb]

lemma lower_eq_of_one_le_similarityQ {a b : List Char}
    (h : 1 ≤ similarityQ a b) : lowerL a = lowerL b :=
  eq_of_one_le_ratioQ h

/-- Evaluation helper: rational arithmetic does not reduce in the kernel, so
concrete similarity values are obtained from the `Nat`-level `matchesTotal`
computation. -/
lemma similarityQ_eval (a b la lb : List Char) (m t : Nat)
    (ha : lowerL a = la) (hb : lowerL b = lb)
    (hm : matchesTotal la lb = m) (ht : la.length + lb.length = t)
    (h0 : t ≠ 0) : similarityQ a b = 2 * (m : ℚ) / (t : ℚ) := by
  unfold similarityQ ratioQ
  rw [ha, hb, hm, ht, if_neg h0]

/-! ## Lemmas for the empty-string case of symmetry -/

lemma jsOf_nil (blo bhi : Nat) (c : Char) : jsOf [] blo bhi c = [] := by
  unfold jsOf
  split <;> simp

lemma extendL_stop {a b : List Char} {alo blo : Nat} (fuel i j k : Nat)
    (h : ¬(alo < i ∧ blo < j ∧ a.getD (i - 1) 'a' = b.getD (j - 1) 'a')) :
    extendL a b alo blo fuel i j k = (i, j, k) := by
  cases fuel with
  | zero => rfl
  | succ fuel => rw [extendL, if_neg h]

lemma extendR_stop {a b : List Char} {ahi bhi : Nat} (fuel i j k : Nat)
    (h : ¬(i + k < ahi ∧ j + k < bhi ∧
      a.getD (i + k) 'a' = b.getD (j + k) 'a')) :
    extendR a b ahi bhi fuel i j k = (i, j, k) := by
  cases fuel with
  | zero => rfl
  | succ fuel => rw [extendR, if_neg h]

lemma flmScan_of_js_nil {a b : List Char} {blo bhi : Nat}
    (hb : ∀ c, jsOf b blo bhi c = []) :
    ∀ (n m i0 j0 : Nat),
      (List.range' m n).foldl (flmStep a b blo bhi) ⟨i0, j0, 0, fun _ => 0⟩ =
        ⟨i0, j0, 0, fun _ => 0⟩ := by
  intro n
  induction n with
  | zero => intro m i0 j0; rfl
  | succ n ih =>
    intro m i0 j0
    rw [List.range'_succ, List.foldl_cons]
    have hstep : flmStep a b blo bhi ⟨i0, j0, 0, fun _ => 0⟩ m =
        ⟨i0, j0, 0, fun _ => 0⟩ := by
      unfold flmStep
      rw [hb]
      rfl
    rw [hstep, ih]

lemma matchesTotal_nil_right (a : List Char) : matchesTotal a [] = 0 := by
  unfold matchesTotal
  simp only [List.length_nil, Nat.add_zero]
  rw [mtGo]
  have hflm : findLongestMatch a [] 0 a.length 0 0 = (0, 0, 0) := by
    unfold findLongestMatch flmScan
    rw [flmScan_of_js_nil (fun c => jsOf_nil 0 0 c)]
    dsimp only
    rw [extendL_stop _ _ _ _ (by simp), extendR_stop _ _ _ _ (by simp)]
  rw [hflm]
  simp

lemma matchesTotal_nil_left (b : List Char) : matchesTotal [] b = 0 := by
  unfold matchesTotal
  simp only [List.length_nil, Nat.zero_add]
  rw [mtGo]
  have hflm : findLongestMatch [] b 0 0 0 b.length = (0, 0, 0) := by
    unfold findLongestMatch flmScan
    simp only [Nat.sub_zero, List.range'_zero, List.foldl_nil]
    rw [extendL_stop _ _ _ _ (by simp), extendR_stop _ _ _ _ (by simp)]
  rw [hflm]
  simp

lemma ratioQ_nil_comm (x : List Char) : ratioQ x [] = ratioQ [] x := by
  unfold ratioQ
  simp [matchesTotal_nil_right, matchesTotal_nil_left, Nat.add_comm]

/-! ## Detect-duplicates membership characterization -/

lemma mem_detectDuplicates {recs : List (List Char × List Char)} {th : ℚ}
    {i j : Nat} :
    (i, j) ∈ detectDuplicates recs th ↔
      i < j ∧ j < recs.length ∧
      th ≤ similarityQ (recs.getD i ([], [])).1 (recs.getD j ([], [])).1 ∧
      th ≤ similarityQ (recs.getD i ([], [])).2 (recs.getD j ([], [])).2 := by
  unfold detectDuplicates
  simp only [List.mem_flatMap, List.mem_filterMap, List.mem_range]
  constructor
  · rintro ⟨x, hx, y, hy, hxy⟩
    by_cases hle : y ≤ x
    · rw [if_pos hle] at hxy
      exact absurd hxy (by simp)
    · rw [if_neg hle] at hxy
      by_cases hc : th ≤ similarityQ (recs.getD x ([], [])).1
            (recs.getD y ([], [])).1 ∧
          th ≤ similarityQ (recs.getD x ([], [])).2 (recs.getD y ([], [])).2
      · rw [if_pos hc] at hxy
        simp only [Option.some.injEq, Prod.mk.injEq] at hxy
        obtain ⟨hxi, hyj⟩ := hxy
        subst hxi
        subst hyj
        exact ⟨by omega, hy, hc.1, hc.2⟩
      · rw [if_neg hc] at hxy
        exact absurd hxy (by simp)
  · rintro ⟨hij, hj, h1, h2⟩
    refine ⟨i, by omega, j, hj, ?_⟩
    rw [if_neg (by omega), if_pos ⟨h1, h2⟩]

/-! ## Claims C1, C5, C7 -/

/-- C1: for every list of normalized records and every threshold,
`detect_duplicates` returns exactly the unordered pairs `(i, j)` with `i < j`
for which both the title similarity and the artist similarity are at least
the threshold; in particular no reflexive pair `(i, i)` ever appears. -/
theorem claim_C1 (recs : List (List Char × List Char)) (th : ℚ) :
    (∀ i j : Nat, ((i, j) ∈ detectDuplicates recs th ↔
      i < j ∧ j < recs.length ∧
      th ≤ similarityQ (recs.getD i ([], [])).1 (recs.getD j ([], [])).1 ∧
      th ≤ similarityQ (recs.getD i ([], [])).2 (recs.getD j ([], [])).2)) ∧
    (∀ i : Nat, (i, i) ∉ detectDuplicates recs th) := by
  refine ⟨fun i j => mem_detectDuplicates, fun i h => ?_⟩
  have hmem := mem_detectDuplicates.mp h
  omega

/-- Closed instance of C1 at a concrete record list and threshold. -/
theorem claim_C1_witness :
    (0, 1) ∈ detectDuplicates [("a".data, "x".data), ("a".data, "x".data)] 1 := by
  refine ((claim_C1 [("a".data, "x".data), ("a".data, "x".data)] 1).1 0 1).mpr
    ⟨by norm_num, by norm_num, ?_, ?_⟩
  · show (1 : ℚ) ≤ similarityQ "a".data "a".data
    rw [similarityQ_eval "a".data "a".data "a".data "a".data 1 2
      (by decide) (by decide) (by decide) (by decide) (by norm_num)]
    norm_num
  · show (1 : ℚ) ≤ similarityQ "x".data "x".data
    rw [similarityQ_eval "x".data "x".data "x".data "x".data 1 2
      (by decide) (by decide) (by decide) (by decide) (by norm_num)]
    norm_num

/-- C5 counterexample: with threshold 1.0 the pair `(0, 1)` is returned for
records whose clean titles are "A" and "a" — the titles are not exactly
equal (the code compares lower-cased strings). -/
theorem claim_C5_counterexample :
    (0, 1) ∈ detectDuplicates [("A".data, "x".data), ("a".data, "x".data)] 1 ∧
      ("A".data : List Char) ≠ "a".data := by
  constructor
  · refine mem_detectDuplicates.mpr ⟨by norm_num, by norm_num, ?_, ?_⟩
    · show (1 : ℚ) ≤ similarityQ "A".data "a".data
      rw [similarityQ_eval "A".data "a".data "a".data "a".data 1 2
        (by decide) (by decide) (by decide) (by decide) (by norm_num)]
      norm_num
    · show (1 : ℚ) ≤ similarityQ "x".data "x".data
      rw [similarityQ_eval "x".data "x".data "x".data "x".data 1 2
        (by decide) (by decide) (by decide) (by decide) (by norm_num)]
      norm_num
  · decide

/-- C5 amended: when threshold is 1.0, `find_duplicates` returns a pair
`(i, j)` only if the records' clean titles are equal after lower-casing and
the clean artists are equal after lower-casing. -/
theorem claim_C5_amended (recs : List (List Char × List Char)) (i j : Nat)
    (h : (i, j) ∈ detectDuplicates recs 1) :
    lowerL (recs.getD i ([], [])).1 = lowerL (recs.getD j ([], [])).1 ∧
      lowerL (recs.getD i ([], [])).2 = lowerL (recs.getD j ([], [])).2 := by
  obtain ⟨_, _, h1, h2⟩ := mem_detectDuplicates.mp h
  exact ⟨lower_eq_of_one_le_similarityQ h1, lower_eq_of_one_le_similarityQ h2⟩

/-- Closed instance of the amended C5 at a concrete record list. -/
theorem claim_C5_amended_witness :
    lowerL "A".data = lowerL "a".data ∧ lowerL "x".data = lowerL "x".data := by
  have h := claim_C5_amended [("A".data, "x".data), ("a".data, "x".data)] 0 1 ?_
  · exact h
  refine mem_detectDuplicates.mpr ⟨by norm_num, by norm_num, ?_, ?_⟩
  · show (1 : ℚ) ≤ similarityQ "A".data "a".data
    rw [similarityQ_eval "A".data "a".data "a".data "a".data 1 2
      (by decide) (by decide) (by decide) (by decide) (by norm_num)]
    norm_num
  · show (1 : ℚ) ≤ similarityQ "x".data "x".data
    rw [similarityQ_eval "x".data "x".data "x".data "x".data 1 2
      (by decide) (by decide) (by decide) (by decide) (by norm_num)]
    norm_num

/-- C7 counterexample: the similarity ratio of `difflib.SequenceMatcher` is
not symmetric; these two strings give 6/11 in one order and 4/11 in the
other. -/
theorem claim_C7_counterexample :
    similarityQ "rswpq".data "pqrsxw".data ≠
      similarityQ "pqrsxw".data "rswpq".data := by
  rw [similarityQ_eval "rswpq".data "pqrsxw".data "rswpq".data "pqrsxw".data 3 11
    (by decide) (by decide) (by decide) (by decide) (by norm_num)]
  rw [similarityQ_eval "pqrsxw".data "rswpq".data "pqrsxw".data "rswpq".data 2 11
    (by decide) (by decide) (by decide) (by decide) (by norm_num)]
  norm_num

/-- C7 amended: the similarity is symmetric whenever one of the two strings
is empty (in general the greedy block-matching of `SequenceMatcher` breaks
symmetry). -/
theorem claim_C7_amended (a b : List Char) (h : a = [] ∨ b = []) :
    similarityQ a b = similarityQ b a := by
  rcases h with h | h
  · subst h
    simp only [similarityQ, lowerL, List.map_nil]
    exact (ratioQ_nil_comm _).symm
  · subst h
    simp only [similarityQ, lowerL, List.map_nil]
    exact ratioQ_nil_comm _

/-- Closed instance of the amended C7. -/
theorem claim_C7_amended_witness :
    similarityQ [] "ab".data = similarityQ "ab".data [] :=
  claim_C7_amended [] "ab".data (Or.inl rfl)

/-! ## Claims C2 and C3: merging -/

lemma getD_set_ne {α : Type} {l : List α} {m i : Nat} {x d : α} (h : m ≠ i) :
    (l.set m x).getD i d = l.getD i d := by
  rw [List.getD_eq_getElem?_getD, List.getElem?_set_ne h,
    ← List.getD_eq_getElem?_getD]

lemma mergeRow_preserve : ∀ (r1 r2 : Row) (k : Nat) (v : List Char),
    r1.getD k none = some v → r1.length = r2.length →
    (mergeRow r1 r2).getD k none = some v := by
  intro r1
  induction r1 with
  | nil =>
    intro r2 k v h _
    simp [List.getD] at h
  | cons x r1 ih =>
    intro r2 k v h hlen
    cases r2 with
    | nil => simp at hlen
    | cons y r2 =>
      cases k with
      | zero =>
        simp only [List.getD_cons_zero] at h
        simp [mergeRow, List.zipWith_cons_cons, List.getD_cons_zero, h]
      | succ k =>
        simp only [List.getD_cons_succ] at h
        simp only [mergeRow, List.zipWith_cons_cons, List.getD_cons_succ]
        exact ih r2 k v h (by simpa using hlen)

/-- Master invariant of the `merge_cross_source_duplicates` pair loop: row
count and column counts are unchanged, non-null fields are never overwritten,
the removed set only grows, removed indices are always the second member of
some pair, and after a pair is processed one of its members is removed. -/
lemma crossFold_inv (n : Nat) :
    ∀ (pairs : List (Nat × Nat)) (st : List Row × List Nat) (L : Nat),
      st.1.length = L →
      (∀ p ∈ pairs, p.1 < L ∧ p.2 < L) →
      (∀ r ∈ st.1, r.length = n) →
      (pairs.foldl crossStep st).1.length = L ∧
      (∀ r ∈ (pairs.foldl crossStep st).1, r.length = n) ∧
      (∀ i k v, (st.1.getD i []).getD k none = some v →
        ((pairs.foldl crossStep st).1.getD i []).getD k none = some v) ∧
      (∀ r ∈ st.2, r ∈ (pairs.foldl crossStep st).2) ∧
      (∀ r ∈ (pairs.foldl crossStep st).2, r ∈ st.2 ∨ ∃ p ∈ pairs, p.2 = r) ∧
      (∀ p ∈ pairs, p.1 ∈ (pairs.foldl crossStep st).2 ∨
        p.2 ∈ (pairs.foldl crossStep st).2) := by
  intro pairs
  induction pairs with
  | nil =>
    intro st L hL hp hu
    refine ⟨hL, hu, fun i k v h => h, fun r h => h, fun r h => Or.inl h, ?_⟩
    intro p hp'
    exact absurd hp' (List.not_mem_nil p)
  | cons p pairs ih =>
    intro st L hL hp hu
    rw [List.foldl_cons]
    have hstep : (crossStep st p).1.length = L ∧
        (∀ r ∈ (crossStep st p).1, r.length = n) ∧
        (∀ i k v, (st.1.getD i []).getD k none = some v →
          ((crossStep st p).1.getD i []).getD k none = some v) ∧
        (∀ r ∈ st.2, r ∈ (crossStep st p).2) := by
      unfold crossStep
      split
      · exact ⟨hL, hu, fun i k v h => h, fun r h => h⟩
      · have hp1 : p.1 < L := (hp p (List.mem_cons_self _ _)).1
        have hp2 : p.2 < L := (hp p (List.mem_cons_self _ _)).2
        have hr1 : st.1.getD p.1 [] ∈ st.1 := by
          rw [List.getD_eq_getElem _ _ (by omega)]
          exact List.getElem_mem _
        have hr2 : st.1.getD p.2 [] ∈ st.1 := by
          rw [List.getD_eq_getElem _ _ (by omega)]
          exact List.getElem_mem _
        have hlen12 : (st.1.getD p.1 []).length = (st.1.getD p.2 []).length := by
          rw [hu _ hr1, hu _ hr2]
        refine ⟨by simpa using hL, ?_, ?_, ?_⟩
        · intro r hr
          rcases List.mem_or_eq_of_mem_set hr with h | h
          · exact hu r h
          · subst h
            unfold mergeRow
            rw [List.length_zipWith, hu _ hr1, hu _ hr2, Nat.min_self]
        · intro i k v h
          dsimp only
          by_cases hip : p.1 = i
          · subst hip
            have hset : ((st.1.set p.1
                (mergeRow (st.1.getD p.1 []) (st.1.getD p.2 []))).getD p.1 []) =
                mergeRow (st.1.getD p.1 []) (st.1.getD p.2 []) := by
              rw [List.getD_eq_getElem?_getD,
                List.getElem?_set_eq_of_lt _ (by omega)]
              rfl
            rw [hset]
            exact mergeRow_preserve _ _ _ _ h hlen12
          · rw [getD_set_ne hip]
            exact h
        · intro r hr
          exact List.mem_cons_of_mem _ hr
    have hpdone : p.1 ∈ (crossStep st p).2 ∨ p.2 ∈ (crossStep st p).2 := by
      unfold crossStep
      split
      · rename_i hcond
        rcases hcond with h | h
        · exact Or.inl h
        · exact Or.inr h
      · exact Or.inr (List.mem_cons_self _ _)
    have hremstep : ∀ r ∈ (crossStep st p).2, r ∈ st.2 ∨ p.2 = r := by
      unfold crossStep
      split
      · intro r h
        exact Or.inl h
      · intro r h
        rcases List.mem_cons.mp h with h | h
        · exact Or.inr h.symm
        · exact Or.inl h
    obtain ⟨ihL, ihU, ihP, ihM, ihO, ihPairs⟩ :=
      ih (crossStep st p) L hstep.1
        (fun q hq => hp q (List.mem_cons_of_mem _ hq)) hstep.2.1
    refine ⟨ihL, ihU, ?_, ?_, ?_, ?_⟩
    · intro i k v h
      exact ihP i k v (hstep.2.2.1 i k v h)
    · intro r h
      exact ihM r (hstep.2.2.2 r h)
    · intro r h
      rcases ihO r h with h' | ⟨q, hq, hq2⟩
      · rcases hremstep r h' with h'' | h''
        · exact Or.inl h''
        · exact Or.inr ⟨p, List.mem_cons_self _ _, h''⟩
      · exact Or.inr ⟨q, List.mem_cons_of_mem _ hq, hq2⟩
    · intro q hq
      rcases List.mem_cons.mp hq with h | h
      · subst h
        rcases hpdone with h' | h'
        · exact Or.inl (ihM _ h')
        · exact Or.inr (ihM _ h')
      · exact ihPairs q h

/-- C3: in `merge_cross_source_duplicates`, only second-indexed members of
pairs are ever removed (the first-indexed record always survives a processed
pair, and every pair ends with one member removed), and a non-null field of
any row is never overwritten by the merging — merged rows only gain values by
null-filling. -/
theorem claim_C3 (n : Nat) (rows : List Row) (pairs : List (Nat × Nat))
    (hu : ∀ r ∈ rows, r.length = n)
    (hp : ∀ p ∈ pairs, p.1 < rows.length ∧ p.2 < rows.length) :
    (∀ r ∈ (mergeCrossState rows pairs).2, ∃ p ∈ pairs, p.2 = r) ∧
    (∀ p ∈ pairs, p.1 ∈ (mergeCrossState rows pairs).2 ∨
      p.2 ∈ (mergeCrossState rows pairs).2) ∧
    (∀ i k v, (rows.getD i []).getD k none = some v →
      ((mergeCrossState rows pairs).1.getD i []).getD k none = some v) := by
  obtain ⟨_, _, hP, _, hO, hPairs⟩ :=
    crossFold_inv n pairs (rows, []) rows.length rfl hp hu
  refine ⟨?_, hPairs, hP⟩
  intro r h
  rcases hO r h with h' | h'
  · exact absurd h' (List.not_mem_nil r)
  · exact h'

/-- Closed instance of C3 at a two-row frame: merging fills the null
`chart_position` of the survivor and removes the second row, never touching
the survivor's non-null `view_count`. -/
theorem claim_C3_witness :
    (∀ r ∈ (mergeCrossState
        [[some "100".data, none], [none, some "5".data]] [(0, 1)]).2,
      ∃ p ∈ [(0, 1)], p.2 = r) ∧
    (∀ p ∈ [(0, 1)], p.1 ∈ (mergeCrossState
        [[some "100".data, none], [none, some "5".data]] [(0, 1)]).2 ∨
      p.2 ∈ (mergeCrossState
        [[some "100".data, none], [none, some "5".data]] [(0, 1)]).2) ∧
    (∀ i k v, (([[some "100".data, none], [none, some "5".data]] :
        List Row).getD i []).getD k none = some v →
      ((mergeCrossState [[some "100".data, none], [none, some "5".data]]
        [(0, 1)]).1.getD i []).getD k none = some v) :=
  claim_C3 2 [[some "100".data, none], [none, some "5".data]] [(0, 1)]
    (by decide) (by decide)

/-- C2 counterexample: record B with no view_count but twelve extra non-null
fields outscores record A (which has view_count), so B survives although the
claim says A always survives. -/
theorem claim_C2_counterexample :
    mergeDuplicateRecords (some 2)
      [[some "t".data, some "r".data, some "5".data],
        [some "t".data, some "r".data, none] ++
          List.replicate 12 (some "c".data)] [(0, 1)] =
      [[some "t".data, some "r".data, none] ++
        List.replicate 12 (some "c".data)] ∧
    ([some "t".data, some "r".data, none] ++
        List.replicate 12 (some "c".data) : Row) ≠
      [some "t".data, some "r".data, some "5".data] := by
  constructor
  · decide
  · decide

/-- C2 amended: for two records with identical clean_title/clean_artist where
the first-indexed record A has view_count set and B does not, A survives
provided B's count of non-null fields exceeds A's by at most 10 (the fixed
view-count bonus); the live pair removes the record with the lower
completeness score and ties keep the first-indexed record. -/
theorem claim_C2_amended (k : Nat) (A B : Row)
    (hA : (A.getD k none).isSome = true) (hB : B.getD k none = none)
    (hle : countSome B ≤ countSome A + 10) :
    mergeDuplicateRecords (some k) [A, B] [(0, 1)] = [A] := by
  have hsA : scoreRow (some k) A = countSome A + 10 := by
    simp only [scoreRow]
    rw [if_pos hA]
  have hsB : scoreRow (some k) B = countSome B := by
    simp only [scoreRow]
    rw [hB]
    simp
  have hrem : mergeDupRemoved (some k) [A, B] [(0, 1)] = [1] := by
    unfold mergeDupRemoved
    simp only [List.foldl_cons, List.foldl_nil, List.not_mem_nil, or_self,
      if_false, List.getD_cons_zero, List.getD_cons_succ]
    rw [hsA, hsB, if_pos (by omega)]
  unfold mergeDuplicateRecords
  rw [hrem]
  have hfil : (List.range 2).filter (fun i => i ∉ ([1] : List Nat)) = [0] := by
    decide
  rw [show List.range ([A, B] : List Row).length = List.range 2 from rfl, hfil]
  simp

/-! ## Claims C6 and C8: clean_text -/

lemma isWs_space : isWs ' ' = true := by decide

lemma ne_space_of_not_ws {c : Char} (h : isWs c = false) : c ≠ ' ' := by
  intro hc
  subst hc
  rw [isWs_space] at h
  cases h

lemma chain'_suffix {α : Type} {R : α → α → Prop} {l₁ l₂ : List α}
    (h : l₁ <:+ l₂) (hc : List.Chain' R l₂) : List.Chain' R l₁ := by
  obtain ⟨u, rfl⟩ := h
  exact (List.chain'_append.mp hc).2.1

lemma noDD_of_no_space {l : List Char} (h : ∀ c ∈ l, c ≠ ' ') : NoDD l := by
  induction l with
  | nil => exact List.chain'_nil
  | cons c l ih =>
    rw [NoDD, List.chain'_cons']
    refine ⟨?_, ih (fun x hx => h x (List.mem_cons_of_mem _ hx))⟩
    intro y _ hcy
    exact h c (List.mem_cons_self _ _) hcy.1

lemma flatMap_id_of_fixed {decomp : Char → List Char} :
    ∀ {s : List Char}, (∀ c ∈ s, decomp c = [c]) → s.flatMap decomp = s := by
  intro s
  induction s with
  | nil => intro _; rfl
  | cons c s ih =>
    intro h
    rw [List.flatMap_cons, h c (List.mem_cons_self _ _),
      ih (fun x hx => h x (List.mem_cons_of_mem _ hx))]
    rfl

lemma dropWhile_head_not {p : Char → Bool} :
    ∀ (l : List Char), ∀ c ∈ (l.dropWhile p).head?, p c = false := by
  intro l
  induction l with
  | nil => intro c hc; cases hc
  | cons a l ih =>
    intro c hc
    rw [List.dropWhile_cons] at hc
    by_cases hp : p a = true
    · rw [if_pos hp] at hc
      exact ih c hc
    · rw [if_neg hp] at hc
      simp only [List.head?_cons, Option.mem_def, Option.some.injEq] at hc
      subst hc
      exact Bool.eq_false_iff.mpr hp

lemma getLast?_of_suffix {α : Type} {l₁ l₂ : List α} (h : l₁ <:+ l₂)
    (hne : l₁ ≠ []) : l₁.getLast? = l₂.getLast? := by
  obtain ⟨u, rfl⟩ := h
  rw [List.getLast?_append]
  cases he : l₁.getLast? with
  | none => exact absurd (List.getLast?_eq_none_iff.mp he) hne
  | some c => rfl

/-! ### pySplit facts -/

lemma pySplitGo_nil : ∀ fuel, pySplitGo fuel [] = [] := by
  intro fuel
  cases fuel <;> rfl

lemma pySplitGo_parts :
    ∀ (fuel : Nat) (s : List Char), s.length ≤ fuel →
      ∀ p ∈ pySplitGo fuel s, p ≠ [] ∧ ∀ c ∈ p, isWs c = false := by
  intro fuel
  induction fuel with
  | zero =>
    intro s hs p hp
    have : s = [] := List.length_eq_zero.mp (by omega)
    subst this
    cases hp
  | succ fuel ih =>
    intro s hs p hp
    cases s with
    | nil => cases hp
    | cons c rest =>
      rw [pySplitGo] at hp
      by_cases hws : isWs c = true
      · rw [if_pos hws] at hp
        exact ih rest (by simp at hs; omega) p hp
      · rw [if_neg hws] at hp
        rcases List.mem_cons.mp hp with h | h
        · subst h
          refine ⟨by simp, ?_⟩
          intro x hx
          rcases List.mem_cons.mp hx with h | h
          · subst h
            exact Bool.eq_false_iff.mpr hws
          · have := List.mem_takeWhile_imp h
            simpa using this
        · have hlen : (rest.dropWhile (fun x => !isWs x)).length ≤ fuel := by
            have := List.Sublist.length_le
              (List.dropWhile_sublist (l := rest) (fun x => !isWs x))
            simp only [List.length_cons] at hs
            omega
          exact ih _ hlen p h

lemma pySplitGo_chars :
    ∀ (fuel : Nat) (s : List Char) (p : List Char) (c : Char),
      p ∈ pySplitGo fuel s → c ∈ p → c ∈ s := by
  intro fuel
  induction fuel with
  | zero =>
    intro s p c hp _
    cases hp
  | succ fuel ih =>
    intro s p c hp hc
    cases s with
    | nil => cases hp
    | cons a rest =>
      rw [pySplitGo] at hp
      by_cases hws : isWs a = true
      · rw [if_pos hws] at hp
        exact List.mem_cons_of_mem _ (ih rest p c hp hc)
      · rw [if_neg hws] at hp
        rcases List.mem_cons.mp hp with h | h
        · subst h
          rcases List.mem_cons.mp hc with h | h
          · subst h
            exact List.mem_cons_self _ _
          · exact List.mem_cons_of_mem _
              ((List.takeWhile_sublist _).mem h)
        · exact List.mem_cons_of_mem _
            ((List.dropWhile_sublist _).mem (ih _ p c h hc))

/-! ### pyJoin facts -/

lemma pyJoin_chars :
    ∀ (ps : List (List Char)) (c : Char), c ∈ pyJoin ps →
      (∃ p ∈ ps, c ∈ p) ∨ c = ' ' := by
  intro ps
  induction ps with
  | nil => intro c hc; cases hc
  | cons p ps ih =>
    intro c hc
    cases ps with
    | nil =>
      rw [pyJoin] at hc
      exact Or.inl ⟨p, List.mem_cons_self _ _, hc⟩
    | cons q qs =>
      rw [pyJoin] at hc
      rcases List.mem_append.mp hc with h | h
      · exact Or.inl ⟨p, List.mem_cons_self _ _, h⟩
      · rcases List.mem_cons.mp h with h | h
        · exact Or.inr h
        · rcases ih c h with ⟨r, hr, hcr⟩ | h
          · exact Or.inl ⟨r, List.mem_cons_of_mem _ hr, hcr⟩
          · exact Or.inr h

lemma pyJoin_head :
    ∀ (p : List Char) (ps : List (List Char)), p ≠ [] →
      (pyJoin (p :: ps)).head? = p.head? := by
  intro p ps hp
  cases ps with
  | nil => rfl
  | cons q qs =>
    rw [pyJoin]
    cases p with
    | nil => exact absurd rfl hp
    | cons c t => rfl

lemma pyJoin_noDD :
    ∀ (ps : List (List Char)),
      (∀ p ∈ ps, p ≠ [] ∧ ∀ c ∈ p, isWs c = false) → NoDD (pyJoin ps) := by
  intro ps
  induction ps with
  | nil => exact fun _ => List.chain'_nil
  | cons p ps ih =>
    intro h
    have hp := h p (List.mem_cons_self _ _)
    have hpnd : NoDD p :=
      noDD_of_no_space (fun c hc => ne_space_of_not_ws (hp.2 c hc))
    cases ps with
    | nil => exact hpnd
    | cons q qs =>
      rw [pyJoin, NoDD, List.chain'_append]
      refine ⟨hpnd, ?_, ?_⟩
      · rw [List.chain'_cons']
        refine ⟨?_, ih (fun r hr => h r (List.mem_cons_of_mem _ hr))⟩
        intro y hy hcy
        have hq := h q (List.mem_cons_of_mem _ (List.mem_cons_self _ _))
        rw [pyJoin_head q qs hq.1] at hy
        have : y ∈ q := by
          cases q with
          | nil => exact absurd rfl hq.1
          | cons a t =>
            simp only [List.head?_cons, Option.mem_def, Option.some.injEq] at hy
            subst hy
            exact List.mem_cons_self _ _
        exact ne_space_of_not_ws (hq.2 y this) hcy.2
      · intro x hx y _
        have hxp : x ∈ p := List.mem_of_mem_getLast? hx
        rintro ⟨hc1, -⟩
        exact ne_space_of_not_ws (hp.2 x hxp) hc1

lemma pyJoin_ws_space :
    ∀ (ps : List (List Char)),
      (∀ p ∈ ps, p ≠ [] ∧ ∀ c ∈ p, isWs c = false) →
      ∀ c ∈ pyJoin ps, isWs c = true → c = ' ' := by
  intro ps h c hc hws
  rcases pyJoin_chars ps c hc with ⟨p, hp, hcp⟩ | h'
  · rw [(h p hp).2 c hcp] at hws
    cases hws
  · exact h'

/-- A canonical string (whitespace characters are all ' ', no two adjacent
spaces, ends not space) is reassembled unchanged by split-and-join. -/
lemma pySplitGo_join :
    ∀ (fuel : Nat), ∀ (s : List Char), s.length ≤ fuel →
      (∀ c ∈ s, isWs c = true → c = ' ') → NoDD s →
      (∀ c ∈ s.head?, c ≠ ' ') → (∀ c ∈ s.getLast?, c ≠ ' ') →
      pyJoin (pySplitGo fuel s) = s := by
  intro fuel
  induction fuel using Nat.strong_induction_on with
  | _ fuel ih =>
    intro s hs hwsp hdd hhd hlast
    cases s with
    | nil => rw [pySplitGo_nil]; rfl
    | cons c rest =>
      cases fuel with
      | zero => simp at hs
      | succ fuel =>
        have hc : c ≠ ' ' := hhd c rfl
        have hcw : isWs c = false := by
          by_contra hcontra
          exact hc (hwsp c (List.mem_cons_self _ _)
            (Bool.not_eq_false _ ▸ Bool.eq_true_of_ne_false hcontra))
        rw [pySplitGo, if_neg (by rw [hcw]; exact Bool.false_ne_true)]
        have hsplit : rest =
            rest.takeWhile (fun x => !isWs x) ++ rest.dropWhile (fun x => !isWs x) :=
          (List.takeWhile_append_dropWhile _ _).symm
        cases hr : rest.dropWhile (fun x => !isWs x) with
        | nil =>
          have hrest : rest = rest.takeWhile (fun x => !isWs x) := by
            conv_lhs => rw [hsplit]
            rw [hr, List.append_nil]
          rw [pySplitGo_nil]
          show pyJoin [c :: rest.takeWhile (fun x => !isWs x)] = c :: rest
          rw [pyJoin, ← hrest]
        | cons d r' =>
          have hd : isWs d = true := by
            have := dropWhile_head_not (p := fun x => !isWs x) rest d
              (by rw [hr]; rfl)
            simpa using this
          have hdmem : d ∈ c :: rest := by
            refine List.mem_cons_of_mem _ ?_
            exact (List.dropWhile_sublist _).mem (by rw [hr]; exact List.mem_cons_self _ _)
          have hdsp : d = ' ' := hwsp d hdmem hd
          subst hdsp
          cases r' with
          | nil =>
            exfalso
            have : (c :: rest).getLast? = some ' ' := by
              have heq0 : c :: rest = (c :: rest.takeWhile (fun x => !isWs x)) ++ [' '] := by
                conv_lhs => rw [hsplit]
                rw [hr]
                simp
              rw [heq0, List.getLast?_concat]
            exact hlast ' ' (by rw [this]; rfl) rfl
          | cons e r'' =>
            have heq : c :: rest =
                (c :: rest.takeWhile (fun x => !isWs x)) ++ ' ' :: e :: r'' := by
              conv_lhs => rw [hsplit]
              rw [hr]
              simp
            have he : e ≠ ' ' := by
              have hchain : NoDD (' ' :: e :: r'') := by
                refine chain'_suffix ⟨c :: rest.takeWhile (fun x => !isWs x), ?_⟩ hdd
                rw [← heq]
              intro hesp
              subst hesp
              have := (List.chain'_cons'.mp hchain).1 ' ' rfl
              exact this ⟨rfl, rfl⟩
            have hlen2 : (' ' :: e :: r'').length ≤ fuel := by
              have h1 : rest.length ≤ fuel := by
                simp only [List.length_cons] at hs
                omega
              have h2 := List.Sublist.length_le
                (List.dropWhile_sublist (l := rest) (fun x => !isWs x))
              rw [hr] at h2
              omega
            cases fuel with
            | zero => simp at hlen2
            | succ fuel' =>
              rw [pySplitGo, if_pos isWs_space]
              have hsub : ∀ x ∈ e :: r'', x ∈ c :: rest := by
                intro x hx
                rw [heq]
                exact List.mem_append.mpr
                  (Or.inr (List.mem_cons_of_mem _ hx))
              have hjoin : pyJoin (pySplitGo fuel' (e :: r'')) = e :: r'' := by
                refine ih fuel' (by omega) (e :: r'') ?_ ?_ ?_ ?_ ?_
                · simp only [List.length_cons] at hlen2 ⊢
                  omega
                · intro x hx hxw
                  exact hwsp x (hsub x hx) hxw
                · refine chain'_suffix ⟨c :: rest.takeWhile (fun x => !isWs x) ++ [' '], ?_⟩ hdd
                  rw [heq]
                  simp
                · intro x hx
                  simp only [List.head?_cons, Option.mem_def, Option.some.injEq] at hx
                  subst hx
                  exact he
                · intro x hx
                  have hlast2 : (e :: r'').getLast? = (c :: rest).getLast? :=
                    getLast?_of_suffix ⟨c :: rest.takeWhile (fun x => !isWs x) ++ [' '], by
                      rw [heq]; simp⟩ (by simp)
                  rw [hlast2] at hx
                  exact hlast x hx
              cases hsg : pySplitGo fuel' (e :: r'') with
              | nil =>
                exfalso
                rw [hsg] at hjoin
                exact List.cons_ne_nil e r'' hjoin.symm
              | cons q qs =>
                rw [pyJoin]
                rw [← hsg, hjoin, heq]

/-! ### pyStrip facts -/

lemma pyStrip_chars {s : List Char} : ∀ c ∈ pyStrip s, c ∈ s := by
  intro c hc
  unfold pyStrip at hc
  rw [List.mem_reverse] at hc
  have h1 := (List.dropWhile_sublist (l := (s.dropWhile isWs).reverse) isWs).mem hc
  rw [List.mem_reverse] at h1
  exact (List.dropWhile_sublist isWs).mem h1

lemma pyStrip_noDD {s : List Char} (h : NoDD s) : NoDD (pyStrip s) := by
  unfold pyStrip
  have h1 : NoDD (s.dropWhile isWs) :=
    chain'_suffix (List.dropWhile_suffix isWs) h
  have h2 : List.Chain' (flip (fun a b => ¬(a = ' ' ∧ b = ' ')))
      (s.dropWhile isWs) := h1.imp (fun a b hab ⟨x, y⟩ => hab ⟨y, x⟩)
  have h3 : NoDD (s.dropWhile isWs).reverse := List.chain'_reverse.mpr h2
  have h4 : NoDD ((s.dropWhile isWs).reverse.dropWhile isWs) :=
    chain'_suffix (List.dropWhile_suffix isWs) h3
  have h5 := h4.imp
    (fun a b (hab : ¬(a = ' ' ∧ b = ' ')) => (fun ⟨x, y⟩ => hab ⟨y, x⟩ :
      flip (fun a b => ¬(a = ' ' ∧ b = ' ')) a b))
  exact List.chain'_reverse.mpr h5

lemma pyStrip_head {s : List Char} :
    ∀ c ∈ (pyStrip s).head?, isWs c = false := by
  intro c hc
  unfold pyStrip at hc
  rw [List.head?_reverse] at hc
  have hne : (s.dropWhile isWs).reverse.dropWhile isWs ≠ [] := by
    intro hnil
    rw [hnil] at hc
    cases hc
  have := getLast?_of_suffix (List.dropWhile_suffix isWs) hne
  rw [this, List.getLast?_reverse] at hc
  exact dropWhile_head_not s c hc

lemma pyStrip_last {s : List Char} :
    ∀ c ∈ (pyStrip s).getLast?, isWs c = false := by
  intro c hc
  unfold pyStrip at hc
  rw [List.getLast?_reverse] at hc
  exact dropWhile_head_not _ c hc

lemma dropWhile_eq_self_of_head {p : Char → Bool} {s : List Char}
    (h : ∀ c ∈ s.head?, p c = false) : s.dropWhile p = s := by
  cases s with
  | nil => rfl
  | cons c rest =>
    rw [List.dropWhile_cons, if_neg]
    rw [h c rfl]
    exact Bool.false_ne_true

lemma pyStrip_eq_self {s : List Char}
    (hh : ∀ c ∈ s.head?, isWs c = false)
    (hl : ∀ c ∈ s.getLast?, isWs c = false) : pyStrip s = s := by
  unfold pyStrip
  rw [dropWhile_eq_self_of_head hh]
  rw [dropWhile_eq_self_of_head (by
    intro c hc
    rw [List.head?_reverse] at hc
    exact hl c hc)]
  exact List.reverse_reverse s

lemma pyStrip_infix {s : List Char} : pyStrip s <:+: s := by
  unfold pyStrip
  have h1 : ((s.dropWhile isWs).reverse.dropWhile isWs).reverse.reverse <:+
      (s.dropWhile isWs).reverse := by
    rw [List.reverse_reverse]
    exact List.dropWhile_suffix isWs
  have h2 : ((s.dropWhile isWs).reverse.dropWhile isWs).reverse <+:
      s.dropWhile isWs := List.reverse_suffix.mp h1
  exact (h2.isInfix).trans ((List.dropWhile_suffix isWs).isInfix)

/-! ### str.replace facts -/

lemma replGo_chars {pat rep : List Char} :
    ∀ (fuel : Nat) (s : List Char) (c : Char),
      c ∈ replGo pat rep fuel s → c ∈ s ∨ c ∈ rep := by
  intro fuel
  induction fuel with
  | zero => intro s c hc; exact Or.inl hc
  | succ fuel ih =>
    intro s c hc
    cases s with
    | nil => cases hc
    | cons a rest =>
      rw [replGo] at hc
      split at hc
      · rcases List.mem_append.mp hc with h | h
        · exact Or.inr h
        · rcases ih _ c h with h' | h'
          · exact Or.inl ((List.drop_sublist _ _).mem h')
          · exact Or.inr h'
      · rcases List.mem_cons.mp hc with h | h
        · subst h
          exact Or.inl (List.mem_cons_self _ _)
        · rcases ih rest c h with h' | h'
          · exact Or.inl (List.mem_cons_of_mem _ h')
          · exact Or.inr h'

lemma replGo_hdSp {pat rep : List Char}
    (hpw : ∀ c ∈ pat, isWs c = false) (hrw : ∀ c ∈ rep, isWs c = false)
    (hrep : rep ≠ []) :
    ∀ (fuel : Nat) (s : List Char), hdSp (replGo pat rep fuel s) = hdSp s := by
  intro fuel
  cases fuel with
  | zero => intro s; rfl
  | succ fuel =>
    intro s
    cases s with
    | nil => rfl
    | cons a rest =>
      rw [replGo]
      split
      · rename_i hcond
        cases rep with
        | nil => exact absurd rfl hrep
        | cons r rt =>
          show (r == ' ') = (a == ' ')
          have hr : r ≠ ' ' :=
            ne_space_of_not_ws (hrw r (List.mem_cons_self _ _))
          have ha : a ≠ ' ' := by
            obtain ⟨hne, hpre⟩ := hcond
            cases pat with
            | nil => exact absurd rfl hne
            | cons p0 pt =>
              have : p0 = a := by
                have := List.isPrefixOf_iff_prefix.mp hpre
                obtain ⟨t, ht⟩ := this
                injection ht with h1 _
              rw [← this]
              exact ne_space_of_not_ws (hpw p0 (List.mem_cons_self _ _))
          rw [beq_eq_false_iff_ne.mpr hr, beq_eq_false_iff_ne.mpr ha]
      · rfl

lemma replGo_noDD {pat rep : List Char}
    (hpat : pat ≠ []) (hpw : ∀ c ∈ pat, isWs c = false)
    (hrep : rep ≠ []) (hrw : ∀ c ∈ rep, isWs c = false) :
    ∀ (fuel : Nat) (s : List Char), NoDD s → NoDD (replGo pat rep fuel s) := by
  intro fuel
  induction fuel with
  | zero => intro s h; exact h
  | succ fuel ih =>
    intro s h
    cases s with
    | nil => exact h
    | cons a rest =>
      rw [replGo]
      split
      · rename_i hcond
        rw [NoDD, List.chain'_append]
        refine ⟨noDD_of_no_space (fun c hc => ne_space_of_not_ws (hrw c hc)),
          ih _ (chain'_suffix ?_ h), ?_⟩
        · exact List.drop_suffix _ _
        · intro x hx y _
          rintro ⟨hx', -⟩
          exact ne_space_of_not_ws (hrw x (List.mem_of_mem_getLast? hx)) hx'
      · rw [NoDD, List.chain'_cons']
        obtain ⟨hhead, htail⟩ := List.chain'_cons'.mp h
        refine ⟨?_, ih rest htail⟩
        intro y hy
        rintro ⟨ha, hy'⟩
        have : hdSp (replGo pat rep fuel rest) = true := by
          cases he : replGo pat rep fuel rest with
          | nil => rw [he] at hy; cases hy
          | cons z zs =>
            rw [he] at hy
            simp only [List.head?_cons, Option.mem_def, Option.some.injEq] at hy
            subst hy
            rw [hdSp]
            exact beq_iff_eq.mpr hy'
        rw [replGo_hdSp hpw hrw hrep] at this
        cases rest with
        | nil => cases this
        | cons b bs =>
          rw [hdSp] at this
          exact hhead b rfl ⟨ha, beq_iff_eq.mp this⟩

lemma replGo_nil_iff {pat rep : List Char} (hrep : rep ≠ []) :
    ∀ (fuel : Nat) (s : List Char), replGo pat rep fuel s = [] ↔ s = [] := by
  intro fuel
  cases fuel with
  | zero => intro s; exact Iff.rfl
  | succ fuel =>
    intro s
    cases s with
    | nil => simp [replGo]
    | cons a rest =>
      rw [replGo]
      split
      · constructor
        · intro h
          exact absurd (List.append_eq_nil.mp h).1 hrep
        · intro h
          cases h
      · simp

/-! ### Occurrences after replacement -/

lemma infix_append_disjoint {l u w : List Char} (hl : l ≠ [])
    (hd : ∀ c ∈ l, c ∉ u) (h : l <:+: u ++ w) : l <:+: w := by
  induction u with
  | nil => simpa using h
  | cons c u ih =>
    rcases h with ⟨s, t, hst⟩
    cases s with
    | nil =>
      exfalso
      cases l with
      | nil => exact hl rfl
      | cons d l' =>
        simp only [List.nil_append, List.cons_append] at hst
        injection hst with h1 _
        exact hd d (List.mem_cons_self _ _) (h1 ▸ List.mem_cons_self _ _)
    | cons d s' =>
      simp only [List.cons_append] at hst
      injection hst with _ h2
      exact ih (fun x hx => fun hxu => hd x hx (List.mem_cons_of_mem _ hxu))
        ⟨s', t, h2⟩

lemma prefix_replGo {pat rep : List Char} (hrep : rep ≠ []) :
    ∀ (fuel : Nat) (s l : List Char), l <+: replGo pat rep fuel s →
      (∀ c ∈ l, c ∉ rep) → l <+: s := by
  intro fuel
  induction fuel with
  | zero => intro s l h _; exact h
  | succ fuel ih =>
    intro s l h hdis
    cases s with
    | nil =>
      simp only [replGo] at h
      rw [List.prefix_nil] at h
      subst h
      exact List.nil_prefix
    | cons a rest =>
      rw [replGo] at h
      split at h
      · cases l with
        | nil => exact List.nil_prefix
        | cons d l' =>
          exfalso
          cases rep with
          | nil => exact hrep rfl
          | cons r rt =>
            obtain ⟨t, ht⟩ := h
            simp only [List.cons_append] at ht
            injection ht with h1 _
            exact hdis d (List.mem_cons_self _ _) (h1 ▸ List.mem_cons_self _ _)
      · cases l with
        | nil => exact List.nil_prefix
        | cons d l' =>
          rw [List.cons_prefix_cons] at h
          obtain ⟨h1, h2⟩ := h
          subst h1
          rw [List.cons_prefix_cons]
          exact ⟨rfl, ih rest l' h2 (fun c hc => hdis c (List.mem_cons_of_mem _ hc))⟩

lemma replGo_not_infix_self {pat rep : List Char} (hpat : pat ≠ [])
    (hrep : rep ≠ []) (hdis : ∀ c ∈ pat, c ∉ rep) :
    ∀ (fuel : Nat) (s : List Char), s.length ≤ fuel →
      ¬ pat <:+: replGo pat rep fuel s := by
  intro fuel
  induction fuel with
  | zero =>
    intro s hs hinf
    have hnil : s = [] := List.length_eq_zero.mp (by omega)
    subst hnil
    rw [show replGo pat rep 0 ([] : List Char) = [] from rfl] at hinf
    rcases hinf with ⟨u, v, huv⟩
    simp only [List.append_eq_nil] at huv
    exact hpat huv.1.2
  | succ fuel ih =>
    intro s hs hinf
    cases s with
    | nil =>
      rw [show replGo pat rep (fuel + 1) ([] : List Char) = [] from rfl] at hinf
      rcases hinf with ⟨u, v, huv⟩
      simp only [List.append_eq_nil] at huv
      exact hpat huv.1.2
    | cons a rest =>
      rw [replGo] at hinf
      split at hinf
      · rename_i hcond
        have h1 : pat <:+: replGo pat rep fuel ((a :: rest).drop pat.length) :=
          infix_append_disjoint hpat hdis hinf
        exact ih _ (by
          have h2 : 1 ≤ pat.length := by
            cases pat with
            | nil => exact absurd rfl hpat
            | cons _ _ => simp
          simp only [List.length_drop, List.length_cons] at *
          omega) h1
      · rename_i hcond
        rcases List.infix_cons_iff.mp hinf with hpre | hinf'
        · cases pat with
          | nil => exact hpat rfl
          | cons p0 pt =>
            rw [List.cons_prefix_cons] at hpre
            obtain ⟨hp0, hpt⟩ := hpre
            have hpt' : pt <+: rest :=
              prefix_replGo hrep fuel rest pt hpt
                (fun c hc => hdis c (List.mem_cons_of_mem _ hc))
            refine hcond ⟨by simp, ?_⟩
            rw [List.isPrefixOf_iff_prefix, List.cons_prefix_cons]
            exact ⟨hp0, hpt'⟩
        · exact ih rest (by simp only [List.length_cons] at hs; omega) hinf'

lemma replGo_not_infix_other {pat rep q : List Char} (hq : q ≠ [])
    (hrep : rep ≠ []) (hdis : ∀ c ∈ q, c ∉ rep) :
    ∀ (fuel : Nat) (s : List Char), ¬ q <:+: s →
      ¬ q <:+: replGo pat rep fuel s := by
  intro fuel
  induction fuel with
  | zero => intro s hns; exact hns
  | succ fuel ih =>
    intro s hns hinf
    cases s with
    | nil => exact hns hinf
    | cons a rest =>
      rw [replGo] at hinf
      split at hinf
      · have h1 := infix_append_disjoint hq hdis hinf
        refine ih _ ?_ h1
        intro h2
        exact hns (h2.trans (List.IsSuffix.isInfix (List.drop_suffix _ _)))
      · rcases List.infix_cons_iff.mp hinf with hpre | hinf'
        · cases q with
          | nil => exact hq rfl
          | cons q0 qt =>
            rw [List.cons_prefix_cons] at hpre
            obtain ⟨hq0, hqt⟩ := hpre
            have hqt' : qt <+: rest :=
              prefix_replGo hrep fuel rest qt hqt
                (fun c hc => hdis c (List.mem_cons_of_mem _ hc))
            subst hq0
            exact hns (List.IsPrefix.isInfix
              (List.cons_prefix_cons.mpr ⟨rfl, hqt'⟩))
        · refine ih rest ?_ hinf'
          intro h2
          exact hns (List.infix_cons h2)

lemma replGo_id_of_not_infix {pat rep : List Char} :
    ∀ (fuel : Nat) (s : List Char), ¬ pat <:+: s →
      replGo pat rep fuel s = s := by
  intro fuel
  induction fuel with
  | zero => intro s _; rfl
  | succ fuel ih =>
    intro s hns
    cases s with
    | nil => rfl
    | cons a rest =>
      rw [replGo]
      split
      · rename_i hcond
        exact absurd (List.IsPrefix.isInfix
          (List.isPrefixOf_iff_prefix.mp hcond.2)) hns
      · rw [ih rest (fun h => hns (List.infix_cons h))]

/-! ### pyReplace corollaries -/

lemma pyReplace_noDD {pat rep : List Char} (hpat : pat ≠ [])
    (hpw : ∀ c ∈ pat, isWs c = false) (hrep : rep ≠ [])
    (hrw : ∀ c ∈ rep, isWs c = false) {s : List Char} (h : NoDD s) :
    NoDD (pyReplace pat rep s) :=
  replGo_noDD hpat hpw hrep hrw s.length s h

lemma pyReplace_chars {pat rep s : List Char} {c : Char}
    (h : c ∈ pyReplace pat rep s) : c ∈ s ∨ c ∈ rep :=
  replGo_chars s.length s c h

lemma pyReplace_not_infix_self {pat rep : List Char} (hpat : pat ≠ [])
    (hrep : rep ≠ []) (hdis : ∀ c ∈ pat, c ∉ rep) (s : List Char) :
    ¬ pat <:+: pyReplace pat rep s :=
  replGo_not_infix_self hpat hrep hdis s.length s (le_refl _)

lemma pyReplace_not_infix_other {pat rep q : List Char} (hq : q ≠ [])
    (hrep : rep ≠ []) (hdis : ∀ c ∈ q, c ∉ rep) {s : List Char}
    (h : ¬ q <:+: s) : ¬ q <:+: pyReplace pat rep s :=
  replGo_not_infix_other hq hrep hdis s.length s h

lemma pyReplace_id {pat rep s : List Char} (h : ¬ pat <:+: s) :
    pyReplace pat rep s = s :=
  replGo_id_of_not_infix s.length s h

/-! ### clean_text theorems -/

/-- C8: the artifact replacement table of `clean_text` is dead code — NFKD
runs first and decomposes U+00E2 into "a"+U+0302 and U+2122 into "tm", so the
pattern "â€™" can never occur when the replace runs.  On the input "â€™"
itself the code returns "a"+U+0302+"€tm" and produces no apostrophe, while
the claim demands the ASCII replacement "'". -/
theorem claim_C8 :
    cleanText decompStd "â€™".data = "â€tm".data ∧
      '\'' ∉ cleanText decompStd "â€™".data := by
  constructor
  · decide
  · decide

/-- C6: `clean_text` is idempotent.  The NFKD call is modelled by the
character-wise decomposition `decomp`; the hypotheses are the relevant
properties of Unicode NFKD: every character occurring in a decomposition is
itself fully decomposed, and the space, apostrophe and double-quote
characters (the characters that `clean_text` itself introduces) are stable. -/
theorem claim_C6 (decomp : Char → List Char)
    (hfix : ∀ c cc, cc ∈ decomp c → decomp cc = [cc])
    (hsp : decomp ' ' = [' '])
    (hq1 : decomp '\'' = ['\''])
    (hq2 : decomp '"' = ['"'])
    (x : List Char) :
    cleanText decomp (cleanText decomp x) = cleanText decomp x := by
  by_cases hx : x = []
  · subst hx
    rfl
  · have hy : cleanText decomp x =
        pyStrip (pyReplace art3 ['"'] (pyReplace art2 ['"']
          (pyReplace art1 ['\''] (collapseWsJoin (x.flatMap decomp))))) := by
      rw [cleanText, if_neg hx]
    -- facts about the collapse stage
    have hparts : ∀ p ∈ pySplit (x.flatMap decomp),
        p ≠ [] ∧ ∀ c ∈ p, isWs c = false :=
      pySplitGo_parts _ _ (le_refl _)
    have ht2dd : NoDD (collapseWsJoin (x.flatMap decomp)) :=
      pyJoin_noDD _ hparts
    have ht2ws : ∀ c ∈ collapseWsJoin (x.flatMap decomp),
        isWs c = true → c = ' ' :=
      pyJoin_ws_space _ hparts
    have ht2src : ∀ c ∈ collapseWsJoin (x.flatMap decomp),
        (∃ c0, c ∈ decomp c0) ∨ c = ' ' := by
      intro c hc
      rcases pyJoin_chars _ c hc with ⟨p, hp, hcp⟩ | h
      · have := pySplitGo_chars _ _ p c hp hcp
        rcases List.mem_flatMap.mp this with ⟨c0, _, hc0⟩
        exact Or.inl ⟨c0, hc0⟩
      · exact Or.inr h
    -- disjointness and whitespace facts about the artifact table
    have ha1ne : art1 ≠ [] := by decide
    have ha2ne : art2 ≠ [] := by decide
    have ha3ne : art3 ≠ [] := by decide
    have hq1ne : (['\''] : List Char) ≠ [] := by decide
    have hq2ne : (['"'] : List Char) ≠ [] := by decide
    have ha1w : ∀ c ∈ art1, isWs c = false := by decide
    have ha2w : ∀ c ∈ art2, isWs c = false := by decide
    have ha3w : ∀ c ∈ art3, isWs c = false := by decide
    have hr1w : ∀ c ∈ (['\''] : List Char), isWs c = false := by decide
    have hr2w : ∀ c ∈ (['"'] : List Char), isWs c = false := by decide
    have hd11 : ∀ c ∈ art1, c ∉ (['\''] : List Char) := by decide
    have hd12 : ∀ c ∈ art1, c ∉ (['"'] : List Char) := by decide
    have hd22 : ∀ c ∈ art2, c ∉ (['"'] : List Char) := by decide
    have hd32 : ∀ c ∈ art3, c ∉ (['"'] : List Char) := by decide
    -- the replace stage: no double spaces, chars tracked, no artifacts left
    have ht3dd : NoDD (pyReplace art3 ['"'] (pyReplace art2 ['"']
        (pyReplace art1 ['\''] (collapseWsJoin (x.flatMap decomp))))) :=
      pyReplace_noDD ha3ne ha3w hq2ne hr2w
        (pyReplace_noDD ha2ne ha2w hq2ne hr2w
          (pyReplace_noDD ha1ne ha1w hq1ne hr1w ht2dd))
    have ht3chars : ∀ c ∈ pyReplace art3 ['"'] (pyReplace art2 ['"']
        (pyReplace art1 ['\''] (collapseWsJoin (x.flatMap decomp)))),
        c ∈ collapseWsJoin (x.flatMap decomp) ∨ c = '\'' ∨ c = '"' := by
      intro c hc
      rcases pyReplace_chars hc with h | h
      · rcases pyReplace_chars h with h' | h'
        · rcases pyReplace_chars h' with h'' | h''
          · exact Or.inl h''
          · simp only [List.mem_singleton] at h''
            exact Or.inr (Or.inl h'')
        · simp only [List.mem_singleton] at h'
          exact Or.inr (Or.inr h')
      · simp only [List.mem_singleton] at h
        exact Or.inr (Or.inr h)
    have hnoa1 : ¬ art1 <:+: pyReplace art3 ['"'] (pyReplace art2 ['"']
        (pyReplace art1 ['\''] (collapseWsJoin (x.flatMap decomp)))) :=
      pyReplace_not_infix_other ha1ne hq2ne hd12
        (pyReplace_not_infix_other ha1ne hq2ne hd12
          (pyReplace_not_infix_self ha1ne hq1ne hd11 _))
    have hnoa2 : ¬ art2 <:+: pyReplace art3 ['"'] (pyReplace art2 ['"']
        (pyReplace art1 ['\''] (collapseWsJoin (x.flatMap decomp)))) :=
      pyReplace_not_infix_other ha2ne hq2ne hd22
        (pyReplace_not_infix_self ha2ne hq2ne hd22 _)
    have hnoa3 : ¬ art3 <:+: pyReplace art3 ['"'] (pyReplace art2 ['"']
        (pyReplace art1 ['\''] (collapseWsJoin (x.flatMap decomp)))) :=
      pyReplace_not_infix_self ha3ne hq2ne hd32 _
    rw [hy]
    by_cases hz : pyStrip (pyReplace art3 ['"'] (pyReplace art2 ['"']
        (pyReplace art1 ['\''] (collapseWsJoin (x.flatMap decomp))))) = []
    · rw [hz]
      rfl
    · rw [cleanText, if_neg hz]
      -- the second pass is the identity, stage by stage
      have hzfix : ∀ c ∈ pyStrip (pyReplace art3 ['"'] (pyReplace art2 ['"']
          (pyReplace art1 ['\''] (collapseWsJoin (x.flatMap decomp))))),
          decomp c = [c] := by
        intro c hc
        have hc3 := pyStrip_chars c hc
        rcases ht3chars c hc3 with h | h | h
        · rcases ht2src c h with ⟨c0, hc0⟩ | h'
          · exact hfix c0 c hc0
          · rw [h']
            exact hsp
        · rw [h]
          exact hq1
        · rw [h]
          exact hq2
      rw [flatMap_id_of_fixed hzfix]
      have hcollapse : collapseWsJoin (pyStrip (pyReplace art3 ['"']
          (pyReplace art2 ['"'] (pyReplace art1 ['\'']
            (collapseWsJoin (x.flatMap decomp)))))) =
          pyStrip (pyReplace art3 ['"'] (pyReplace art2 ['"']
            (pyReplace art1 ['\''] (collapseWsJoin (x.flatMap decomp))))) := by
        refine pySplitGo_join _ _ (le_refl _) ?_ ?_ ?_ ?_
        · intro c hc hcw
          have hc3 := pyStrip_chars c hc
          rcases ht3chars c hc3 with h | h | h
          · exact ht2ws c h hcw
          · rw [h] at hcw
            exact absurd hcw (by decide)
          · rw [h] at hcw
            exact absurd hcw (by decide)
        · exact pyStrip_noDD ht3dd
        · intro c hc
          exact ne_space_of_not_ws (pyStrip_head c hc)
        · intro c hc
          exact ne_space_of_not_ws (pyStrip_last c hc)
      rw [hcollapse]
      have hstripinf : ∀ q : List Char, ¬ q <:+: pyReplace art3 ['"']
          (pyReplace art2 ['"'] (pyReplace art1 ['\'']
            (collapseWsJoin (x.flatMap decomp)))) →
          ¬ q <:+: pyStrip (pyReplace art3 ['"'] (pyReplace art2 ['"']
            (pyReplace art1 ['\''] (collapseWsJoin (x.flatMap decomp))))) := by
        intro q hq hinf
        exact hq (hinf.trans pyStrip_infix)
      rw [pyReplace_id (hstripinf _ hnoa1), pyReplace_id (hstripinf _ hnoa2),
        pyReplace_id (hstripinf _ hnoa3)]
      exact pyStrip_eq_self pyStrip_head pyStrip_last

/-- Closed instance of C6 with the identity decomposition on a string whose
cleaning is nontrivial. -/
theorem claim_C6_witness :
    cleanText (fun c => [c]) (cleanText (fun c => [c]) "  a  b ".data) =
      cleanText (fun c => [c]) "  a  b ".data :=
  claim_C6 (fun c => [c])
    (fun c cc h => by
      simp only [List.mem_singleton] at h
      rw [h])
    rfl rfl rfl "  a  b ".data

/-- Closed instance of the amended C2. -/
theorem claim_C2_amended_witness :
    mergeDuplicateRecords (some 2)
      [[some "t".data, some "r".data, some "5".data],
        [some "t".data, some "r".data, none]] [(0, 1)] =
      [[some "t".data, some "r".data, some "5".data]] :=
  claim_C2_amended 2 [some "t".data, some "r".data, some "5".data]
    [some "t".data, some "r".data, none] (by decide) (by decide) (by decide)

/-! ## Claim C4: title/artist extraction -/

lemma extractGo_eq_findSome (title : List Char) (rs : List RE) :
    extractGo title rs =
      match rs.findSome? (fun r =>
          match tryPattern title r with
          | none => none
          | some pr => if rejected pr.1 then none else some pr) with
      | some pr => (some pr.1, pr.2)
      | none => (none, title) := by
  induction rs with
  | nil => rfl
  | cons r rs ih =>
    rw [List.findSome?_cons]
    show (match tryPattern title r with
      | none => extractGo title rs
      | some pr =>
        if rejected pr.1 then extractGo title rs else (some pr.1, pr.2)) = _
    cases htp : tryPattern title r with
    | none => simpa using ih
    | some pr =>
      by_cases hrj : rejected pr.1 = true
      · simp only [if_pos hrj]
        simpa using ih
      · simp only [if_neg hrj]

/-- C4 is refuted on the title `A "B" hd - C`: the first pattern does match
it, with captured artist `A "B" hd`, and that artist contains the excluded
term `hd`, so by the claim extraction should return `(null, original_title)`
with no further pattern tried; the code instead falls through to the second
pattern, which succeeds, and returns `(some "A", "B")`. -/
theorem claim_C4_counterexample :
    tryPattern "A \"B\" hd - C".data extPat1 =
        some ("A \"B\" hd".data, "C".data) ∧
    rejected "A \"B\" hd".data = true ∧
    extractArtistTrackFromTitle "A \"B\" hd - C".data =
        (some "A".data, "B".data) ∧
    extractArtistTrackFromTitle "A \"B\" hd - C".data ≠
        (none, "A \"B\" hd - C".data) :=
  ⟨by decide, by decide, by decide, by decide⟩

/-- C4, amended: the patterns are tried in the fixed order and the first
pattern that matches AND whose captured artist passes the exclusion filter
provides the result; a match whose artist contains an excluded term is
rejected and extraction falls through to the NEXT pattern; only when no
pattern yields an accepted match does it return `(null, title)` (and the
empty title gives `(null, "")`). -/
theorem claim_C4_amended (title : List Char) :
    extractArtistTrackFromTitle title = extractFirstAccepted title := by
  unfold extractArtistTrackFromTitle extractFirstAccepted
  by_cases h : title = []
  · rw [if_pos h, if_pos h]
  · rw [if_neg h, if_neg h]
    exact extractGo_eq_findSome title extractPatterns

/-- Closed instance of the amended C4. -/
theorem claim_C4_amended_witness :
    extractArtistTrackFromTitle "Adele - Hello".data =
      extractFirstAccepted "Adele - Hello".data :=
  claim_C4_amended "Adele - Hello".data

/-! ## Claim C9: malformed-field handling in the cleaning stages -/

lemma mem_chartCleanStage {α : Type} {decomp : Char → List Char}
    {jp : List Char → Option α} {e : α} {rows : List RawChart}
    {c : CleanChart α} :
    c ∈ chartCleanStage decomp jp e rows ↔
      (∃ r ∈ rows,
        CleanChart.mk r (cleanTrackTitle decomp r.track)
          (cleanArtistName decomp r.artist) (r.position.bind parsePyInt)
          (parseJsonCol jp e r.addInfo) = c) ∧
      (c.cleanTrack ≠ [] ∧ c.cleanArtist ≠ []) := by
  unfold chartCleanStage
  rw [List.mem_filter, List.mem_map]
  simp only [Bool.and_eq_true, Bool.not_eq_true', List.isEmpty_eq_false, ne_eq]

lemma mem_ytCleanStage {β : Type} {decomp : Char → List Char}
    {jt : List Char → Option β} {e : β} {rows : List RawYt} {c : CleanYt β} :
    c ∈ ytCleanStage decomp jt e rows ↔
      (∃ r ∈ rows, ytCleanRow decomp jt e r = c) ∧
      (c.finalTrack ≠ [] ∧ c.finalArtist ≠ []) := by
  unfold ytCleanStage
  rw [List.mem_filter, List.mem_map]
  simp only [Bool.and_eq_true, Bool.not_eq_true', List.isEmpty_eq_false, ne_eq]

/-- C9, amended.  The cleaning stages are total functions of the raw rows
(nothing is raised), and: a raw chart row survives iff its cleaned track and
artist are non-empty, in which case its `position` is coerced by the numeric
parse — null when missing or unparsable — and its `additional_info` falls
back to the default on null, empty or unparsable JSON; a raw YouTube row
survives iff its final track and artist are non-empty, but its numeric fields
are coerced and then null-FILLED: a missing or unparsable `view_count` (or
like/comment count) becomes 0, not null, because of `.fillna(0)`. -/
theorem claim_C9_amended {α β : Type} (decomp : Char → List Char)
    (jp : List Char → Option α) (e : α) (jt : List Char → Option β) (eb : β)
    (crows : List RawChart) (yrows : List RawYt) :
    (∀ r ∈ crows,
      (cleanTrackTitle decomp r.track ≠ [] ∧
        cleanArtistName decomp r.artist ≠ []) ↔
      CleanChart.mk r (cleanTrackTitle decomp r.track)
        (cleanArtistName decomp r.artist) (r.position.bind parsePyInt)
        (parseJsonCol jp e r.addInfo) ∈ chartCleanStage decomp jp e crows) ∧
    (∀ c ∈ chartCleanStage decomp jp e crows,
      c.raw ∈ crows ∧ c.positionNum = c.raw.position.bind parsePyInt ∧
      c.info = parseJsonCol jp e c.raw.addInfo ∧
      c.cleanTrack ≠ [] ∧ c.cleanArtist ≠ []) ∧
    (∀ r ∈ yrows,
      ((ytCleanRow decomp jt eb r).finalTrack ≠ [] ∧
        (ytCleanRow decomp jt eb r).finalArtist ≠ []) ↔
      ytCleanRow decomp jt eb r ∈ ytCleanStage decomp jt eb yrows) ∧
    (∀ c ∈ ytCleanStage decomp jt eb yrows,
      c.raw ∈ yrows ∧ c.viewCountN = (c.raw.viewCount.bind parsePyInt).getD 0 ∧
      c.likeCountN = (c.raw.likeCount.bind parsePyInt).getD 0 ∧
      c.commentCountN = (c.raw.commentCount.bind parsePyInt).getD 0 ∧
      c.durationSeconds = parseDuration c.raw.duration ∧
      c.tagsList = parseJsonCol jt eb c.raw.tags ∧
      c.finalTrack ≠ [] ∧ c.finalArtist ≠ []) := by
  refine ⟨?_, ?_, ?_, ?_⟩
  · intro r hr
    constructor
    · intro hne
      exact mem_chartCleanStage.mpr ⟨⟨r, hr, rfl⟩, hne.1, hne.2⟩
    · intro hmem
      exact (mem_chartCleanStage.mp hmem).2
  · intro c hc
    obtain ⟨⟨r, hr, hmk⟩, hne⟩ := mem_chartCleanStage.mp hc
    subst hmk
    exact ⟨hr, rfl, rfl, hne.1, hne.2⟩
  · intro r hr
    constructor
    · intro hne
      exact mem_ytCleanStage.mpr ⟨⟨r, hr, rfl⟩, hne.1, hne.2⟩
    · intro hmem
      exact (mem_ytCleanStage.mp hmem).2
  · intro c hc
    obtain ⟨⟨r, hr, hmk⟩, hne⟩ := mem_ytCleanStage.mp hc
    subst hmk
    exact ⟨hr, rfl, rfl, rfl, rfl, rfl, hne.1, hne.2⟩

/-- Closed instance of the amended C9: a chart row whose position `5x` is
unparsable survives with a null position. -/
theorem claim_C9_amended_witness :
    CleanChart.mk (RawChart.mk "t".data "a".data [] [] (some "5x".data) none)
        (cleanTrackTitle decompStd "t".data)
        (cleanArtistName decompStd "a".data)
        ((some "5x".data).bind parsePyInt)
        (parseJsonCol (fun _ => none) PUnit.unit none) ∈
      chartCleanStage decompStd (fun _ => none) PUnit.unit
        [RawChart.mk "t".data "a".data [] [] (some "5x".data) none] :=
  ((claim_C9_amended decompStd (fun _ => none) PUnit.unit
      (fun _ => (none : Option PUnit)) PUnit.unit
      [RawChart.mk "t".data "a".data [] [] (some "5x".data) none] []).1
    (RawChart.mk "t".data "a".data [] [] (some "5x".data) none)
    (List.mem_singleton.mpr rfl)).mp ⟨by decide, by decide⟩

/-- C9 is refuted on the `view_count` half: the claim says an unparsable
numeric field is set to null, but `clean_youtube_data` runs `.fillna(0)`
after the coercion, so a YouTube record with the unparsable view count
`abc` survives with `view_count = 0`, not null (the chart `position` half,
which has no `fillna`, does coerce to null). -/
theorem claim_C9_counterexample :
    parsePyInt "abc".data = none ∧
    (ytCleanStage decompStd (fun _ => (none : Option PUnit)) PUnit.unit
        [RawYt.mk "a".data "b".data (some "abc".data) none none none
          none]).map (fun c => c.viewCountN) = [0] :=
  ⟨by decide, by decide⟩

/-! ## Claim C10: chart records precede video records in the unified set -/

lemma sourceOf_combined_lt {α β : Type} (cs : List (CleanChart α))
    (ys : List (CleanYt β)) {i : Nat} (h : i < cs.length) :
    sourceOf (combinedRows cs ys) i = some "chart".data := by
  unfold sourceOf combinedRows
  have h1 : i < (cs.map projChart).length := by simpa using h
  rw [List.getD_append _ _ _ _ h1, List.getD_eq_getElem _ _ h1,
    List.getElem_map]
  rfl

lemma sourceOf_combined_ge {α β : Type} (cs : List (CleanChart α))
    (ys : List (CleanYt β)) {i : Nat} (h1 : cs.length ≤ i)
    (h2 : i < cs.length + ys.length) :
    sourceOf (combinedRows cs ys) i = some "youtube".data := by
  unfold sourceOf combinedRows
  have h1' : (cs.map projChart).length ≤ i := by simpa using h1
  have h3 : i - (cs.map projChart).length < (ys.map projYt).length := by
    simp only [List.length_map]
    omega
  rw [List.getD_append_right _ _ _ _ h1', List.getD_eq_getElem _ _ h3,
    List.getElem_map]
  rfl

lemma unifiedPairs_bounds {rows : List Row} {th : ℚ} {p : Nat × Nat}
    (h : p ∈ unifiedPairs rows th) :
    p.1 < p.2 ∧ p.2 < rows.length := by
  rcases p with ⟨i, j⟩
  obtain ⟨hij, hjl, -, -⟩ := mem_detectDuplicates.mp h
  exact ⟨hij, by simpa using hjl⟩

/-- C10: in the unified dataset every (surviving) chart record is placed
before every video record, so a cross-source duplicate pair with one record
of each source is always oriented (chart, youtube); since the cross-source
merge removes only second components and fills the survivor by null-filling
only, the chart record survives each such processed pair with its non-null
fields intact while the video record is removed. -/
theorem claim_C10 {α β : Type} (cs : List (CleanChart α))
    (ys : List (CleanYt β)) (th : ℚ) :
    (∀ i, i < cs.length →
      sourceOf (combinedRows cs ys) i = some "chart".data) ∧
    (∀ i, cs.length ≤ i → i < (combinedRows cs ys).length →
      sourceOf (combinedRows cs ys) i = some "youtube".data) ∧
    (∀ p ∈ unifiedPairs (combinedRows cs ys) th,
      sourceOf (combinedRows cs ys) p.1 ≠ sourceOf (combinedRows cs ys) p.2 →
      sourceOf (combinedRows cs ys) p.1 = some "chart".data ∧
      sourceOf (combinedRows cs ys) p.2 = some "youtube".data) ∧
    (∀ p ∈ unifiedPairs (combinedRows cs ys) th,
      p.1 ∈ (mergeCrossState (combinedRows cs ys)
          (unifiedPairs (combinedRows cs ys) th)).2 ∨
      p.2 ∈ (mergeCrossState (combinedRows cs ys)
          (unifiedPairs (combinedRows cs ys) th)).2) ∧
    (∀ r ∈ (mergeCrossState (combinedRows cs ys)
        (unifiedPairs (combinedRows cs ys) th)).2,
      ∃ p ∈ unifiedPairs (combinedRows cs ys) th, p.2 = r) ∧
    (∀ i k v, ((combinedRows cs ys).getD i []).getD k none = some v →
      ((mergeCrossState (combinedRows cs ys)
          (unifiedPairs (combinedRows cs ys) th)).1.getD i []).getD k none =
        some v) := by
  have hlen : (combinedRows cs ys).length = cs.length + ys.length := by
    simp [combinedRows]
  have hu : ∀ r ∈ combinedRows cs ys, r.length = 11 := by
    intro r hr
    rcases List.mem_append.mp hr with h | h
    · obtain ⟨c, -, rfl⟩ := List.mem_map.mp h
      rfl
    · obtain ⟨c, -, rfl⟩ := List.mem_map.mp h
      rfl
  have hp : ∀ p ∈ unifiedPairs (combinedRows cs ys) th,
      p.1 < (combinedRows cs ys).length ∧
      p.2 < (combinedRows cs ys).length := by
    intro p hpm
    obtain ⟨h1, h2⟩ := unifiedPairs_bounds hpm
    exact ⟨by omega, h2⟩
  obtain ⟨-, -, hP, -, hO, hPairs⟩ :=
    crossFold_inv 11 (unifiedPairs (combinedRows cs ys) th)
      (combinedRows cs ys, []) (combinedRows cs ys).length rfl hp hu
  refine ⟨?_, ?_, ?_, hPairs, ?_, hP⟩
  · intro i hi
    exact sourceOf_combined_lt cs ys hi
  · intro i hi1 hi2
    exact sourceOf_combined_ge cs ys hi1 (by omega)
  · intro p hpm hneq
    obtain ⟨hij, hjl⟩ := unifiedPairs_bounds hpm
    rw [hlen] at hjl
    by_cases hic : p.1 < cs.length
    · have h1 := sourceOf_combined_lt cs ys (β := β) hic
      by_cases hjc : p.2 < cs.length
      · have h2 := sourceOf_combined_lt cs ys (β := β) hjc
        rw [h1, h2] at hneq
        exact absurd rfl hneq
      · exact ⟨h1, sourceOf_combined_ge cs ys (by omega) hjl⟩
    · have h1 := sourceOf_combined_ge cs ys (i := p.1) (by omega) (by omega)
      have h2 := sourceOf_combined_ge cs ys (i := p.2) (by omega) hjl
      rw [h1, h2] at hneq
      exact absurd rfl hneq
  · intro r hr
    rcases hO r hr with h | h
    · exact absurd h (List.not_mem_nil r)
    · exact h

/-- Closed instance of C10 at a one-chart-record frame. -/
theorem claim_C10_witness :
    sourceOf (combinedRows
      [CleanChart.mk (RawChart.mk [] [] [] [] none none) "t".data "r".data
        none PUnit.unit] ([] : List (CleanYt PUnit))) 0 =
      some "chart".data :=
  (claim_C10
    [CleanChart.mk (RawChart.mk [] [] [] [] none none) "t".data "r".data
      none PUnit.unit] ([] : List (CleanYt PUnit)) 1).1 0 (by decide)

end MusicClean
